import Mathlib

/-!
Verification development for the free-space-optical protocol simulator's core
algorithms: Galois-field arithmetic and Reed-Solomon encoding
(src/fec/reed_solomon.c), LDPC matrix construction, encoding and decoding
(src/fec/ldpc.c), modulation round-trips (src/modulation/ook.c, ppm.c,
dpsk.c), free-space path loss (src/turbulence/channel.c), and the beam
tracker's misalignment state machine (src/beam_tracking/misalignment.c).

Modelling conventions: C arrays become Lean lists, with out-of-range reads
yielding 0 (the C code never reads out of range on the paths proved here);
machine integers become `Nat` or `Int` (all values involved stay far below
any overflow boundary); `double` becomes `ℝ` where transcendental functions
occur, `ℚ` where the code only produces and compares exact dyadic values,
and `ℂ` for the `ComplexSample` pairs; error codes become an inductive type.
-/

/-- Error result discriminant, from `FSOErrorCode` in src/fso.h. -/
inductive FSOErrorCode where
  | success
  | invalidParam
  | memory
  | notInitialized
  | convergence
  | unsupported
  | ioFailure
  deriving DecidableEq, Repr

/-! ### Galois-field arithmetic, from src/fec/reed_solomon.c -/

/-- One shift-and-reduce step: `a <<= 1; if (a >= field_size) a ^= poly;`,
the loop body of `gf_mul_no_table` acting on `a`. -/
def gfStep (field_size poly a : ℕ) : ℕ :=
  if field_size ≤ 2 * a then 2 * a ^^^ poly else 2 * a

/-- The loop of `gf_mul_no_table`, with an explicit fuel argument: the C
loop halves `b` every iteration, so it runs fewer than `b + 1` times, and
starting the structural recursion with fuel `b` computes the same value
while keeping the definition kernel-reducible. -/
def gfMulNoTableGo (primitive_poly field_size : ℕ) : ℕ → ℕ → ℕ → ℕ
  | 0, _, _ => 0
  | fuel + 1, a, b =>
    if b = 0 then 0
    else
      (if b % 2 = 1 then a else 0) ^^^
        gfMulNoTableGo primitive_poly field_size fuel
          (gfStep field_size primitive_poly a) (b / 2)

/-- Carry-free multiplication with reduction, `gf_mul_no_table` in
reed_solomon.c: while `b > 0`, add `a` into the result when the low bit of
`b` is set, then shift-and-reduce `a` and halve `b`. -/
def gf_mul_no_table (primitive_poly field_size a b : ℕ) : ℕ :=
  gfMulNoTableGo primitive_poly field_size b a b

/-- Entry `i` of the base exponential table: `gf_build_tables` starts from
`exp_table[0] = 1` and repeatedly applies `x = gf_mul_no_table(x, 2, ...)`. -/
def gfExpFn (m poly : ℕ) (i : ℕ) : ℕ :=
  (fun x => gf_mul_no_table poly (2 ^ m) x 2)^[i] 1

/-- The logarithm table after the writes `log_table[exp_table[i]] = i` for
`i = 1 .. q-2` (plus the initial `log_table[0] = log_table[1] = 0` on the
zero-initialised array).  `gfLogBuild m poly j` is the table after the
iterations `i ≤ j`; a later iteration overwrites an earlier one, which the
outermost `Function.update` models. -/
def gfLogBuild (m poly : ℕ) : ℕ → ℕ → ℕ
  | 0 => fun _ => 0
  | j + 1 => Function.update (gfLogBuild m poly j) (gfExpFn m poly (j + 1)) (j + 1)

/-- The finished logarithm table of `gf_build_tables`. -/
def gf_log_table (m poly : ℕ) : ℕ → ℕ := gfLogBuild m poly (2 ^ m - 2)

/-- The exponential table of `gf_build_tables`, including the doubled-length
extension `exp_table[i] = exp_table[i - (q-1)]` for `i = q-1 .. 2q-3`
(entries `2q-2` and `2q-1` stay at the `calloc` value 0). -/
def gf_exp_table (m poly i : ℕ) : ℕ :=
  if i ≤ 2 ^ m - 2 then gfExpFn m poly i
  else if i ≤ 2 * 2 ^ m - 3 then gfExpFn m poly (i - (2 ^ m - 1))
  else 0

/-- The inverse table: `inv_table[x] = exp_table[q - 1 - log_table[x]]` for
`x ≠ 0`, and `inv_table[0] = 0`. -/
def gf_inv_table (m poly x : ℕ) : ℕ :=
  if x = 0 then 0 else gf_exp_table m poly (2 ^ m - 1 - gf_log_table m poly x)

/-- `gf_mul` from reed_solomon.c: log-table multiplication with one
conditional subtraction of `q - 1`. -/
def gf_mul (m poly a b : ℕ) : ℕ :=
  if a = 0 ∨ b = 0 then 0
  else
    let s := gf_log_table m poly a + gf_log_table m poly b
    gf_exp_table m poly (if 2 ^ m - 1 ≤ s then s - (2 ^ m - 1) else s)

/-- `gf_div` from reed_solomon.c: log-table division; the difference of
logarithms is a C `int`, modelled by `ℤ`, with one conditional addition of
`q - 1`. -/
def gf_div (m poly a b : ℕ) : ℕ :=
  if a = 0 then 0
  else if b = 0 then 0
  else
    let d : ℤ := (gf_log_table m poly a : ℤ) - gf_log_table m poly b
    gf_exp_table m poly (if d < 0 then d + (2 ^ m - 1) else d).toNat

/-- `gf_inv` from reed_solomon.c. -/
def gf_inv (m poly a : ℕ) : ℕ := if a = 0 then 0 else gf_inv_table m poly a

/-- `gf_pow` from reed_solomon.c. -/
def gf_pow (m poly base exponent : ℕ) : ℕ :=
  if base = 0 then 0
  else if exponent = 0 then 1
  else gf_exp_table m poly (gf_log_table m poly base * exponent % (2 ^ m - 1))

/-- Parameter validation of `gf_init` in reed_solomon.c: it checks
`3 <= symbol_size <= RS_MAX_SYMBOL_SIZE` (16) and `primitive_poly > 0`, and
nothing else; table construction itself cannot fail in this model (memory
allocation is not modelled). -/
def gf_init (symbol_size primitive_poly : ℕ) : FSOErrorCode :=
  if ¬ (3 ≤ symbol_size ∧ symbol_size ≤ 16) then .invalidParam
  else if ¬ (0 < primitive_poly) then .invalidParam
  else .success

/-- The degree loop of `rs_is_primitive_poly_valid`:
`while (temp > 0) { degree++; temp >>= 1; }`.  The loop halves `temp`, so
fuel `n` suffices and keeps the recursion structural. -/
def rsPolyBitCount : ℕ → ℕ → ℕ
  | 0, _ => 0
  | fuel + 1, n => if n = 0 then 0 else rsPolyBitCount fuel (n / 2) + 1

/-- `rs_is_primitive_poly_valid` from reed_solomon.c: range-checks
`symbol_size`, requires a positive polynomial, and compares the bit count
minus one (the C degree loop) with `symbol_size`. -/
def rs_is_primitive_poly_valid (symbol_size primitive_poly : ℕ) : Bool :=
  if symbol_size < 3 ∨ 16 < symbol_size then false
  else if primitive_poly = 0 then false
  else decide (rsPolyBitCount primitive_poly primitive_poly - 1 = symbol_size)

/-- A degree-`m` primitive polynomial over GF(2), stated in the form the
table-construction proofs consume: the polynomial has degree exactly `m`
(`2^m ≤ poly < 2^(m+1)`), a unit constant term (`poly` odd — any primitive
polynomial has one, since otherwise `x` divides it), and the element `x`
generates the multiplicative group, i.e. its first `2^m - 1` powers — the
entries produced by the table-construction iteration — are pairwise
distinct. -/
def IsPrimitivePoly (m poly : ℕ) : Prop :=
  2 ^ m ≤ poly ∧ poly < 2 ^ (m + 1) ∧ poly % 2 = 1 ∧
    ∀ i < 2 ^ m - 1, ∀ j < 2 ^ m - 1,
      gfExpFn m poly i = gfExpFn m poly j → i = j

instance (m poly : ℕ) : Decidable (IsPrimitivePoly m poly) := by
  unfold IsPrimitivePoly; infer_instance

/-! ### Reed-Solomon generator polynomial and systematic encoding,
from src/fec/reed_solomon.c -/

/-- One iteration of `rs_generate_generator_polynomial`: multiply the current
generator polynomial (coefficient of `x^j` at index `j`) by `(x - root)`.
The C code shifts the array up by one (multiply by `x`) and then adds
`root * temp[j]` into indices `0 .. new_degree - 1`; the leading coefficient
(index `new_degree`) is the old leading coefficient. -/
def rsGenPolyStep (m poly root : ℕ) (g : List ℕ) : List ℕ :=
  let shifted := 0 :: g
  (List.range g.length).map
      (fun j => shifted.getD j 0 ^^^ gf_mul m poly root (g.getD j 0)) ++
    [g.getD (g.length - 1) 0]

/-- `rs_generate_generator_polynomial`: starting from the constant 1, fold
in the roots `alpha^(fcr + i)` for `i = 0 .. num_roots - 1`. -/
def rs_generate_generator_polynomial (m poly fcr num_roots : ℕ) : List ℕ :=
  (List.range num_roots).foldl
    (fun g i => rsGenPolyStep m poly (gf_pow m poly 2 (fcr + i)) g) [1]

/-- The polynomial long-division loop of `rs_encode`: for `i = 0 .. k-1`,
take `feedback = temp[i]` and, when it is nonzero, add
`feedback * generator_poly[j]` into `temp[i+j]` for `j = 0 .. degree`. -/
def rsEncodeDivision (m poly k : ℕ) (genPoly temp : List ℕ) : List ℕ :=
  (List.range k).foldl
    (fun t i =>
      let feedback := t.getD i 0
      if feedback = 0 then t
      else
        (List.range genPoly.length).foldl
          (fun t2 j =>
            t2.set (i + j) (t2.getD (i + j) 0 ^^^ gf_mul m poly feedback (genPoly.getD j 0)))
          t)
    temp

/-- `rs_encode` from reed_solomon.c: copy the `k` information symbols into
the first `k` output positions, zero the parity positions, run the long
division on `[data, 0^(n-k)]`, and copy `temp[k .. n-1]` into the parity
positions. -/
def rs_encode (m poly fcr n k : ℕ) (data : List ℕ) : List ℕ :=
  let genPoly := rs_generate_generator_polynomial m poly fcr (n - k)
  let temp0 := (List.range n).map (fun i => if i < k then data.getD i 0 else 0)
  let temp := rsEncodeDivision m poly k genPoly temp0
  (List.range n).map (fun i => if i < k then data.getD i 0 else temp.getD i 0)

/-! ### Misalignment state machine, from src/beam_tracking/misalignment.c -/

/-- The beam-tracker fields `beam_track_check_misalignment` touches. -/
structure BeamTrackerState where
  signal_strength : ℚ
  signal_threshold : ℚ
  misaligned : Bool
  deriving DecidableEq, Repr

/-- `beam_track_check_misalignment`: a negative measurement is rejected
(logged as an error) and the call returns 0 with the tracker untouched;
otherwise the stored strength is updated and the flag follows the
comparison with the threshold (the inner `if` around the assignment in the
C code only guards the log message, so the unconditional assignment below
has the same effect).  Returns the updated state and the C return value
(1 = misaligned, 0 = aligned). -/
def beam_track_check_misalignment (tracker : BeamTrackerState)
    (measured_strength : ℚ) : BeamTrackerState × ℕ :=
  if measured_strength < 0 then (tracker, 0)
  else
    let tracker1 := { tracker with signal_strength := measured_strength }
    if measured_strength < tracker.signal_threshold then
      ({ tracker1 with misaligned := true }, 1)
    else
      ({ tracker1 with misaligned := false }, 0)

/-! ### The return path of `ldpc_decode`, from src/fec/ldpc.c -/

/-- The parameter checks and the post-loop section of `ldpc_decode`
(ldpc.c, the code before and after the belief-propagation loop).  The loop
itself operates on `double` messages; its outcome — the final hard
decisions `decoded_bits` and the flag `converged` from
`ldpc_check_convergence` — enters as parameters.  Returns the C error code,
the bytes written to `decoded`, and `*errors_corrected`.  After the loop
the code copies `decoded_bits[0 .. k-1]` out, counts the positions where
the copied bit differs from the received byte, logs a warning when
`converged` is false, and returns `FSO_SUCCESS`. -/
def ldpc_decode_model (n k : ℕ) (received : List ℕ) (decoded_len : ℕ)
    (decoded_bits : List ℕ) (converged : Bool) : FSOErrorCode × List ℕ × ℕ :=
  if received.length ≠ n then (.invalidParam, [], 0)
  else if decoded_len < k then (.invalidParam, [], 0)
  else
    let decoded := (List.range k).map fun i => decoded_bits.getD i 0
    let errors := (List.range k).foldl
      (fun cnt i => if decoded.getD i 0 ≠ received.getD i 0 then cnt + 1 else cnt) 0
    (.success, decoded, errors)

/-! ### LDPC matrix construction, encoding and syndrome,
from src/fec/ldpc.c -/

/-- The tolerance test of `ldpc_generate_standard_matrix`: whether the code
rate `k / n` is within 1e-6 of the standard rate `p / q`.  For positive
denominators, `|k/n - p/q| < 1/10^6` clears to the integer inequality
`10^6 * |k*q - p*n| < n*q` used here (the double-precision rounding of
`(double)k / (double)n`, below 2⁻⁵² relative, cannot cross the 1e-6
tolerance at the code lengths the codec admits). -/
def ldpcRateMatches (k n p q : ℕ) : Bool :=
  1000000 * ((k : ℤ) * q - p * n).natAbs < n * q

/-- The degree pair `(dv, dc)` that `ldpc_generate_standard_matrix` picks
for the code rate `k / n`: the C code compares the `double` rate against
the four standard rates with tolerance 1e-6 and falls back to (3, 6). -/
def ldpcSelectDegrees (k n : ℕ) : ℕ × ℕ :=
  if ldpcRateMatches k n 1 2 then (3, 6)
  else if ldpcRateMatches k n 2 3 then (4, 8)
  else if ldpcRateMatches k n 3 4 then (5, 10)
  else if ldpcRateMatches k n 5 6 then (6, 12)
  else (3, 6)

/-- One inner-loop body of `ldpc_create_regular_matrix`: try to connect
variable node `v` through its `d`-th edge.  The cyclically shifted check
node is used unless `(check_node, v)` is already an edge, in which case the
first fresh alternative `(check_node + alt) % m`, `alt = 1 .. m-1`, is
taken.  The C alternative-search guard `edge_count < num_edges` is constant
during one search, so it is hoisted in front of the search. -/
def ldpcAddEdge (m dv shiftInc numEdges : ℕ) (acc : List (ℕ × ℕ)) (v d : ℕ) :
    List (ℕ × ℕ) :=
  let base_check := (v * dv + d) % m
  let check_node := (base_check + d * shiftInc) % m
  if ¬ acc.contains (check_node, v) then acc ++ [(check_node, v)]
  else if acc.length < numEdges then
    match (List.range' 1 (m - 1)).find?
        (fun alt => ¬ acc.contains ((check_node + alt) % m, v)) with
    | some alt => acc ++ [((check_node + alt) % m, v)]
    | none => acc
  else acc

/-- The edge list (row, column) of the parity-check matrix built by
`ldpc_create_regular_matrix` for an `n`-column, `m`-row code with variable
degree `dv`: the two nested loops over `v` and `d`, with
`shift_increment = max(1, m / dv)` and every stored value equal to 1. -/
def ldpc_create_regular_matrix (n m dv : ℕ) : List (ℕ × ℕ) :=
  let shiftInc := max 1 (m / dv)
  let numEdges := n * dv
  (List.range n).foldl
    (fun acc v => (List.range dv).foldl (fun a d => ldpcAddEdge m dv shiftInc numEdges a v d) acc)
    []

/-- Entry lookup in the dense matrix used during Gaussian elimination. -/
def matGet (M : List (List ℕ)) (r c : ℕ) : ℕ := (M.getD r []).getD c 0

/-- The dense copy of `H` that `ldpc_gaussian_elimination` builds from the
sparse element list. -/
def ldpcDenseH (elements : List (ℕ × ℕ)) (m n : ℕ) : List (List ℕ) :=
  elements.foldl
    (fun M e =>
      if e.1 < m ∧ e.2 < n then M.set e.1 ((M.getD e.1 []).set e.2 1) else M)
    (List.replicate m (List.replicate n 0))

/-- One column step of the GF(2) Gaussian elimination in
`ldpc_gaussian_elimination`: find a pivot row at or below `pivot_row` with a
1 in `col`, swap it up, clear every other 1 in the column by row XOR, and
advance `pivot_row`; if no pivot exists the column is skipped. -/
def ldpcElimStep (m n : ℕ) (state : List (List ℕ) × ℕ) (col : ℕ) :
    List (List ℕ) × ℕ :=
  let M := state.1
  let pivotRow := state.2
  if m ≤ pivotRow then state
  else
    match (List.range' pivotRow (m - pivotRow)).find? (fun row => matGet M row col = 1) with
    | none => state
    | some row =>
      let swapped := (List.range m).map
        (fun r => if r = pivotRow then M.getD row []
                  else if r = row then M.getD pivotRow []
                  else M.getD r [])
      let eliminated := (List.range m).map
        (fun r =>
          if r ≠ pivotRow ∧ matGet swapped r col = 1 then
            (List.range n).map (fun c => matGet swapped r c ^^^ matGet swapped pivotRow c)
          else swapped.getD r [])
      (eliminated, pivotRow + 1)

/-- `ldpc_gaussian_elimination` on the dense copy of `H`: eliminate on the
last `n - k` columns, from column `k` to `n - 1`. -/
def ldpc_gaussian_elimination (elements : List (ℕ × ℕ)) (m n k : ℕ) :
    List (List ℕ) :=
  ((List.range' k (n - k)).foldl (ldpcElimStep m n) (ldpcDenseH elements m n, 0)).1

/-- The generator-matrix element list built at the end of
`ldpc_gaussian_elimination`: identity entries `(i, i)` for `i < k`, followed
by the entries `(i, j)` with `H_temp[i][j] = 1` for `i < min k m`,
`k ≤ j < n`, truncated once `nnz_count` reaches the allocated
`G->nnz = k * k` (the identity part consumes `k` of that budget). -/
def ldpcGeneratorElements (Ht : List (List ℕ)) (m n k : ℕ) : List (ℕ × ℕ) :=
  let idPart := (List.range k).map (fun i => (i, i))
  let parityPart := (List.range (min k m)).flatMap
    (fun i => ((List.range' k (n - k)).filter (fun j => matGet Ht i j = 1)).map (fun j => (i, j)))
  idPart ++ parityPart.take (k * k - k)

/-- `ldpc_encode` from ldpc.c: place the information bits (masked to one
bit) in the first `k` positions, zero the rest, and for every information
bit equal to 1 XOR the parity columns (`col >= k`) of the corresponding
generator row into the codeword.  The CSR arrays the C code walks hold
exactly the element list of `G`, row by row. -/
def ldpc_encode (G : List (ℕ × ℕ)) (n k : ℕ) (data : List ℕ) : List ℕ :=
  let enc0 := (List.range n).map (fun i => if i < k then data.getD i 0 % 2 else 0)
  (List.range k).foldl
    (fun enc i =>
      if data.getD i 0 % 2 = 1 then
        G.foldl
          (fun e g => if g.1 = i ∧ k ≤ g.2 then e.set g.2 (e.getD g.2 0 ^^^ 1) else e)
          enc
      else enc)
    enc0

/-- The syndrome `H * c` over GF(2) as `ldpc_calculate_syndrome` computes
it: for every check row, XOR the codeword bits at that row's columns.  The
CSR arrays hold exactly the element list of `H`. -/
def ldpcSyndrome (elements : List (ℕ × ℕ)) (m : ℕ) (c : List ℕ) : List ℕ :=
  (List.range m).map
    (fun r => (elements.filter (fun e => e.1 = r)).foldl (fun s e => s ^^^ c.getD e.2 0) 0)

/-- The full encode pipeline of `fec_init` + `fec_encode` for an LDPC codec:
build the regular parity-check matrix for the codec's rate, run the
Gaussian elimination, extract the generator elements, and encode. -/
def ldpcPipelineH (n k : ℕ) : List (ℕ × ℕ) :=
  let dvdc := ldpcSelectDegrees k n
  ldpc_create_regular_matrix n (n - k) dvdc.1

def ldpcPipelineEncode (n k : ℕ) (data : List ℕ) : List ℕ :=
  let H := ldpcPipelineH n k
  let Ht := ldpc_gaussian_elimination H (n - k) n k
  let G := ldpcGeneratorElements Ht (n - k) n k
  ldpc_encode G n k data

/-! ### Bit packing shared by the modulators -/

/-- The bits of one byte, most significant first: the inner loops
`for (bit_idx = 7; bit_idx >= 0; bit_idx--) bit = (byte >> bit_idx) & 1`. -/
def byteBits (b : ℕ) : List Bool := (List.range 8).map (fun j => b.testBit (7 - j))

/-- Reassemble a byte from bits, most significant first: the demodulators
build `byte |= 1 << bit_idx` with `bit_idx` running 7 down to 0 in symbol
order, i.e. bit `j` of the list lands at position `7 - j`; the doubling
fold below produces the same value. -/
def bitsToByte (bits : List Bool) : ℕ :=
  bits.foldl (fun acc bit => 2 * acc + (if bit then 1 else 0)) 0

/-- `extract_bits` from src/modulation/ppm.c.  Because `num_bits ≤ 8`, the
C while loop runs at most twice — once in the starting byte and once in the
following byte — so the two iterations are written out.  In the C names:
`byte_idx = bit_offset / 8`, `avail = 8 - bit_offset % 8`, and in the
two-byte case `rest = num_bits - avail` bits come from the next byte. -/
def extract_bits (data : List ℕ) (bit_offset num_bits : ℕ) : ℕ :=
  if num_bits ≤ 8 - bit_offset % 8 then
    (data.getD (bit_offset / 8) 0 >>> (8 - bit_offset % 8 - num_bits)) &&&
      (2 ^ num_bits - 1)
  else
    ((data.getD (bit_offset / 8) 0 &&& (2 ^ (8 - bit_offset % 8) - 1)) <<<
        (num_bits - (8 - bit_offset % 8))) |||
      ((data.getD (bit_offset / 8 + 1) 0 >>>
          (8 - (num_bits - (8 - bit_offset % 8)))) &&&
        (2 ^ (num_bits - (8 - bit_offset % 8)) - 1))

/-- `insert_bits` from src/modulation/ppm.c, unrolled the same way; the C
complement `~(mask << shift)` on a `uint8_t` is `255 ^^^ (mask <<< shift)`
since the shifted mask fits in one byte.  In the one-byte case the write at
`byte_idx` clears `num_bits` bits at shift `avail - num_bits` and copies
the low `num_bits` of `bits` there; in the two-byte case the first write
takes the `avail` high bits of `bits` (at shift 0) and the second write
takes the remaining `rest` low bits at shift `8 - rest`. -/
def insert_bits (data : List ℕ) (bit_offset bits num_bits : ℕ) : List ℕ :=
  if num_bits ≤ 8 - bit_offset % 8 then
    data.set (bit_offset / 8)
      ((data.getD (bit_offset / 8) 0 &&&
          (255 ^^^ ((2 ^ num_bits - 1) <<< (8 - bit_offset % 8 - num_bits)))) |||
        ((bits &&& (2 ^ num_bits - 1)) <<< (8 - bit_offset % 8 - num_bits)))
  else
    (data.set (bit_offset / 8)
        ((data.getD (bit_offset / 8) 0 &&& (255 ^^^ (2 ^ (8 - bit_offset % 8) - 1))) |||
          ((bits >>> (num_bits - (8 - bit_offset % 8))) &&&
            (2 ^ (8 - bit_offset % 8) - 1)))).set (bit_offset / 8 + 1)
      (((data.set (bit_offset / 8)
            ((data.getD (bit_offset / 8) 0 &&& (255 ^^^ (2 ^ (8 - bit_offset % 8) - 1))) |||
              ((bits >>> (num_bits - (8 - bit_offset % 8))) &&&
                (2 ^ (8 - bit_offset % 8) - 1)))).getD (bit_offset / 8 + 1) 0 &&&
          (255 ^^^ ((2 ^ (num_bits - (8 - bit_offset % 8)) - 1) <<<
            (8 - (num_bits - (8 - bit_offset % 8)))))) |||
        ((bits &&& (2 ^ (num_bits - (8 - bit_offset % 8)) - 1)) <<<
          (8 - (num_bits - (8 - bit_offset % 8)))))

/-- Bit `i` of a byte buffer in stream order (MSB of byte 0 first): the
reading both PPM loops address the buffer with, `bit i` living in byte
`i / 8` at position `7 - i % 8`. -/
def bitAt (l : List ℕ) (i : ℕ) : Bool := (l.getD (i / 8) 0).testBit (7 - i % 8)

/-! ### OOK modulation, from src/modulation/ook.c.
Symbol values are exactly 0.0 and 1.0; `double` becomes `ℝ` because the
low-SNR threshold involves `pow(10, snr/10)`. -/

/-- `ook_modulate`: one symbol per bit, MSB first, `1 ↦ 1.0`, `0 ↦ 0.0`. -/
def ook_modulate (data : List ℕ) : List ℝ :=
  data.flatMap (fun byte => (byteBits byte).map (fun bit => if bit then (1 : ℝ) else 0))

/-- `ook_calculate_threshold`: 0.5 for SNR ≥ 10 dB, otherwise
`0.5 + 0.1 * (0.5 / 10^(snr/10))` clamped into [0.3, 0.7]. -/
noncomputable def ook_calculate_threshold (snr : ℝ) : ℝ :=
  if 10 ≤ snr then 1 / 2
  else
    let snr_linear := (10 : ℝ) ^ (snr / 10)
    let noise_variance := (1 / 2) / snr_linear
    let threshold := 1 / 2 + (1 / 10) * noise_variance
    if 7 / 10 < threshold then 7 / 10
    else if threshold < 3 / 10 then 3 / 10
    else threshold

/-- One byte of `ook_demodulate`: eight threshold decisions
(`symbol >= threshold`), assembled MSB first. -/
noncomputable def ookDemodByte (threshold : ℝ) (syms : List ℝ) : ℕ :=
  bitsToByte (syms.map (fun s => decide (threshold ≤ s)))

/-- The byte loop of `ook_demodulate`, one byte per 8 symbols. -/
noncomputable def ookDemodLoop (threshold : ℝ) : ℕ → List ℝ → List ℕ
  | 0, _ => []
  | nb + 1, syms => ookDemodByte threshold (syms.take 8) :: ookDemodLoop threshold nb (syms.drop 8)

/-- `ook_demodulate`: validate the symbol count, compute the threshold from
the SNR, and decode `symbol_len / 8` bytes. -/
noncomputable def ook_demodulate (symbols : List ℝ) (snr : ℝ) : FSOErrorCode × List ℕ :=
  if symbols.length = 0 ∨ symbols.length % 8 ≠ 0 then (.invalidParam, [])
  else
    (.success, ookDemodLoop (ook_calculate_threshold snr) (symbols.length / 8) symbols)

/-! ### PPM modulation, from src/modulation/ppm.c.
All slot values are exactly 0.0 or 1.0 and the demodulator only compares
them, so `double` becomes `ℚ` here. -/

/-- `ppm_bits_per_symbol`; the C default branch returns -1 but is
unreachable behind the order validation, so it is modelled as 0. -/
def ppm_bits_per_symbol (ppm_order : ℕ) : ℕ :=
  if ppm_order = 2 then 1
  else if ppm_order = 4 then 2
  else if ppm_order = 8 then 3
  else if ppm_order = 16 then 4
  else 0

/-- The bit chunk feeding one PPM symbol, including the zero-padding branch
for a final partial chunk. -/
def ppmSymBits (data : List ℕ) (totalBits bps off : ℕ) : ℕ :=
  if off + bps ≤ totalBits then extract_bits data off bps
  else
    let rem := totalBits - off
    if 0 < rem then extract_bits data off rem <<< (bps - rem) else 0

/-- One `M`-slot PPM symbol with the pulse in slot `bits`. -/
def ppmWindow (M bits : ℕ) : List ℚ :=
  (List.range M).map (fun slot => if slot = bits then (1 : ℚ) else 0)

/-- The symbol loop of `ppm_modulate`: `numSym` symbols, each consuming
`bps` bits from offset `off`. -/
def ppmModLoop (data : List ℕ) (totalBits bps M : ℕ) : ℕ → ℕ → List ℚ
  | 0, _ => []
  | s + 1, off =>
    ppmWindow M (ppmSymBits data totalBits bps off) ++
      ppmModLoop data totalBits bps M s (off + bps)

/-- `ppm_modulate`: validate, then emit
`ceil(8 * data_len / bits_per_symbol)` symbols of `ppm_order` slots each. -/
def ppm_modulate (data : List ℕ) (ppm_order : ℕ) : FSOErrorCode × List ℚ :=
  if data.length = 0 ∨
      ¬ (ppm_order = 2 ∨ ppm_order = 4 ∨ ppm_order = 8 ∨ ppm_order = 16) then
    (.invalidParam, [])
  else
    let bps := ppm_bits_per_symbol ppm_order
    let totalBits := data.length * 8
    let numSym := (totalBits + bps - 1) / bps
    (.success, ppmModLoop data totalBits bps ppm_order numSym 0)

/-- The maximum-likelihood slot search of `ppm_demodulate`: start from slot
0 and move only on a strictly larger value. -/
def ppmArgmax (w : List ℚ) : ℕ :=
  ((List.range' 1 (w.length - 1)).foldl
    (fun p slot => if p.2 < w.getD slot 0 then (slot, w.getD slot 0) else p)
    (0, w.getD 0 0)).1

/-- The symbol loop of `ppm_demodulate`: per symbol, arg-max over the next
`M` slots, then insert the recovered bits at the running offset (with the
partial-final-chunk branch). -/
def ppmDemodLoop (M bps totalBits : ℕ) : ℕ → ℕ → List ℚ → List ℕ → List ℕ
  | 0, _, _, buf => buf
  | s + 1, off, syms, buf =>
    let slot := ppmArgmax (syms.take M)
    let buf2 :=
      if off + bps ≤ totalBits then insert_bits buf off slot bps
      else
        let rem := totalBits - off
        if 0 < rem then insert_bits buf off (slot >>> (bps - rem)) rem else buf
    ppmDemodLoop M bps totalBits s (off + bps) (syms.drop M) buf2

/-- `ppm_demodulate`: validate, then decode `symbol_len / ppm_order`
symbols into a zero-initialised buffer of `ceil(total_bits / 8)` bytes. -/
def ppm_demodulate (symbols : List ℚ) (ppm_order : ℕ) : FSOErrorCode × List ℕ :=
  if symbols.length = 0 ∨ symbols.length % ppm_order ≠ 0 ∨
      ¬ (ppm_order = 2 ∨ ppm_order = 4 ∨ ppm_order = 8 ∨ ppm_order = 16) then
    (.invalidParam, [])
  else
    let bps := ppm_bits_per_symbol ppm_order
    let numSym := symbols.length / ppm_order
    let totalBits := numSym * bps
    let numBytes := (totalBits + 7) / 8
    (.success, ppmDemodLoop ppm_order bps totalBits numSym 0 symbols (List.replicate numBytes 0))

/-! ### DPSK modulation, from src/modulation/dpsk.c.
`ComplexSample` becomes `ℂ`: `fso_complex_mul` and `fso_complex_conjugate`
in src/utils/math_utils.c compute exactly the complex product and
conjugate, and `fso_complex_phase` is `atan2(imag, real)`, which is
`Complex.arg`.  `FSO_PI` denotes π. -/

/-- `fso_complex_from_polar` with the given magnitude and phase. -/
noncomputable def fso_complex_from_polar (magnitude phase : ℝ) : ℂ :=
  ⟨magnitude * Real.cos phase, magnitude * Real.sin phase⟩

/-- The DPSK modulator state: `last_phase` and the `initialized` flag. -/
structure DPSKState where
  initialized : Bool
  last_phase : ℝ

/-- The phase wrap of `dpsk_modulate`.  The C code uses two while loops,
but every phase it wraps is a previously wrapped phase in [-π, π] plus 0 or
π, hence lies in [-π, 2π], so each loop body runs at most once and the
wrap is a single conditional step in each direction. -/
noncomputable def wrapPhase (phase : ℝ) : ℝ :=
  if Real.pi < phase then phase - 2 * Real.pi
  else if phase < -Real.pi then phase + 2 * Real.pi
  else phase

/-- The per-bit loop of `dpsk_modulate`: add π per 1-bit, wrap, emit the
unit-magnitude symbol, and return the final phase. -/
noncomputable def dpskModBits (phase : ℝ) : List Bool → List ℂ × ℝ
  | [] => ([], phase)
  | bit :: rest =>
    let phase1 := wrapPhase (phase + if bit then Real.pi else 0)
    let next := dpskModBits phase1 rest
    (fso_complex_from_polar 1 phase1 :: next.1, next.2)

/-- The byte loop of `dpsk_modulate` (8 bits per byte, MSB first). -/
noncomputable def dpskModData (phase : ℝ) : List ℕ → List ℂ × ℝ
  | [] => ([], phase)
  | byte :: rest =>
    let first := dpskModBits phase (byteBits byte)
    let next := dpskModData first.2 rest
    (first.1 ++ next.1, next.2)

/-- `dpsk_modulate`: validate, seed the phase from the state (0 on the
first call), run the loops, and store the final phase. -/
noncomputable def dpsk_modulate (state : DPSKState) (data : List ℕ) :
    FSOErrorCode × List ℂ × DPSKState :=
  if data.length = 0 then (.invalidParam, [], state)
  else
    let phase0 := if state.initialized then state.last_phase else 0
    let res := dpskModData phase0 data
    (.success, res.1, ⟨true, res.2⟩)

/-- One differential-detection decision of `dpsk_demodulate`: multiply the
current symbol by the conjugate of the previous one and test the sign of
the real part (negative means bit 1). -/
noncomputable def dpskDemodBit (prev cur : ℂ) : Bool :=
  decide ((cur * (starRingEnd ℂ) prev).re < 0)

/-- The per-bit loop of `dpsk_demodulate` over a run of symbols, returning
the bits and the last symbol seen (the next reference). -/
noncomputable def dpskDemodBits (prev : ℂ) : List ℂ → List Bool × ℂ
  | [] => ([], prev)
  | cur :: rest =>
    let next := dpskDemodBits cur rest
    (dpskDemodBit prev cur :: next.1, next.2)

/-- The byte loop of `dpsk_demodulate`: 8 symbols per byte. -/
noncomputable def dpskDemodLoop (prev : ℂ) : ℕ → List ℂ → List ℕ × ℂ
  | 0, _ => ([], prev)
  | nb + 1, syms =>
    let first := dpskDemodBits prev (syms.take 8)
    let next := dpskDemodLoop first.2 nb (syms.drop 8)
    (bitsToByte first.1 :: next.1, next.2)

/-- `dpsk_demodulate`: validate the symbol count, seed the previous symbol
from the stored phase (phase 0 on the first call), decode
`symbol_len / 8` bytes, and store the phase of the last symbol. -/
noncomputable def dpsk_demodulate (state : DPSKState) (symbols : List ℂ) :
    FSOErrorCode × List ℕ × DPSKState :=
  if symbols.length = 0 ∨ symbols.length % 8 ≠ 0 then (.invalidParam, [], state)
  else
    let prev0 := fso_complex_from_polar 1 (if state.initialized then state.last_phase else 0)
    let res := dpskDemodLoop prev0 (symbols.length / 8) symbols
    (.success, res.1, ⟨true, Complex.arg res.2⟩)

/-! ### Free-space path loss, from src/turbulence/channel.c -/

/-- `channel_calculate_path_loss`: `20 * log10(4 * π * distance / λ)`. -/
noncomputable def channel_calculate_path_loss (distance wavelength : ℝ) : ℝ :=
  20 * Real.logb 10 (4 * Real.pi * distance / wavelength)

/-- The channel fields involved in the cached path loss. -/
structure ChannelState where
  link_distance : ℝ
  wavelength : ℝ
  path_loss_db : ℝ

/-- The path-loss caching step of `channel_update_calculations`. -/
noncomputable def channel_update_calculations (ch : ChannelState) : ChannelState :=
  { ch with path_loss_db := channel_calculate_path_loss ch.link_distance ch.wavelength }

/-! ## Theorems -/

/-! ### Generic helper lemmas -/

/-- The counting fold of `ldpc_decode` equals the number of elements
satisfying the predicate. -/
theorem foldl_count_eq_filter_length (p : ℕ → Prop) [DecidablePred p]
    (l : List ℕ) (acc : ℕ) :
    l.foldl (fun cnt i => if p i then cnt + 1 else cnt) acc =
      acc + (l.filter (fun i => decide (p i))).length := by
  induction l generalizing acc with
  | nil => simp
  | cons a t ih =>
    simp only [List.foldl_cons, List.filter_cons]
    by_cases h : p a <;> simp [h, ih] <;> omega

/-- Reading a mapped range list at an in-range index. -/
theorem getD_map_range (f : ℕ → ℕ) (k i : ℕ) (h : i < k) :
    ((List.range k).map f).getD i 0 = f i := by
  simp [List.getD_eq_getElem?_getD, List.getElem?_map, List.getElem?_range, h]

/-! ### Claim C9: misalignment state machine -/

/-- Claim C9, counterexample to the claim as stated: with threshold 1/2 and
an aligned tracker, the call `check_misalignment(-1)` has measured strength
below the threshold, yet it does not set the `misaligned` flag — the
negative-measurement guard returns early. -/
theorem claimC9_counterexample :
    (-1 : ℚ) < (1 : ℚ) ∧
      (beam_track_check_misalignment ⟨0, 1, false⟩ (-1)).1.misaligned = false := by
  decide

/-- Claim C9 (amended): for nonnegative measurements the flag after the
call equals the comparison `s < threshold` — so `s < threshold` sets it,
`s ≥ threshold` clears it, and no other transition happens; a negative
measurement is rejected and leaves the whole tracker state unchanged. -/
theorem claimC9 (tracker : BeamTrackerState) (s : ℚ) :
    (0 ≤ s →
      (beam_track_check_misalignment tracker s).1.misaligned =
        decide (s < tracker.signal_threshold)) ∧
    (s < 0 → (beam_track_check_misalignment tracker s).1 = tracker) := by
  constructor
  · intro h0
    unfold beam_track_check_misalignment
    rw [if_neg (not_lt.mpr h0)]
    by_cases h : s < tracker.signal_threshold <;> simp [h]
  · intro hneg
    unfold beam_track_check_misalignment
    rw [if_pos hneg]

/-- Claim C9, witness: the amended theorem applied at a concrete aligned
tracker with threshold 1 and the in-range measurement 0, which sets the
flag. -/
theorem claimC9_witness :
    (beam_track_check_misalignment ⟨0, 1, false⟩ 0).1.misaligned =
      decide ((0 : ℚ) < (⟨0, 1, false⟩ : BeamTrackerState).signal_threshold) :=
  (claimC9 ⟨0, 1, false⟩ 0).1 (by norm_num)

/-! ### Claim C7: gf_init parameter validation -/

/-- Claim C7, counterexample to the claim as stated: the polynomial 3 has
degree 1, not 8 (`rs_is_primitive_poly_valid` rejects it), yet
`gf_init(8, 3)` does not return `InvalidParam` — it only checks
`primitive_poly > 0`. -/
theorem claimC7_counterexample :
    rs_is_primitive_poly_valid 8 3 = false ∧ gf_init 8 3 = FSOErrorCode.success := by
  constructor
  · decide
  · decide

/-- Claim C7 (amended): `gf_init` returns `InvalidParam` exactly when the
symbol size is outside [3, 16] or the polynomial is not positive; the
degree of the polynomial is not checked (the checker
`rs_is_primitive_poly_valid` exists but `gf_init` does not call it), and in
every other case the field is constructed successfully. -/
theorem claimC7 (symbol_size primitive_poly : ℕ) :
    (gf_init symbol_size primitive_poly = FSOErrorCode.invalidParam ↔
      (symbol_size < 3 ∨ 16 < symbol_size ∨ primitive_poly = 0)) ∧
    (gf_init symbol_size primitive_poly = FSOErrorCode.success ↔
      ¬ (symbol_size < 3 ∨ 16 < symbol_size ∨ primitive_poly = 0)) := by
  unfold gf_init
  by_cases h1 : 3 ≤ symbol_size ∧ symbol_size ≤ 16
  · by_cases h2 : 0 < primitive_poly
    · simp [h1, h2]
      omega
    · simp [h1, h2]
      omega
  · simp [h1]
    omega

/-! ### Claim C4: ldpc_decode on non-convergence -/

/-- Claim C4, counterexample to the claim as stated: at a concrete valid
input whose belief-propagation outcome did not converge
(`converged = false`), `ldpc_decode` still returns `FSO_SUCCESS` — it does
not return `FSO_ERROR_CONVERGENCE` and has no output through which
`converged=false` could reach the caller. -/
theorem claimC4_counterexample :
    (ldpc_decode_model 12 6 [1, 1, 0, 0, 1, 0, 0, 0, 0, 0, 0, 0] 6
        [0, 1, 1, 0, 0, 0, 1, 1, 1, 1, 1, 1] false).1 = FSOErrorCode.success ∧
      (ldpc_decode_model 12 6 [1, 1, 0, 0, 1, 0, 0, 0, 0, 0, 0, 0] 6
        [0, 1, 1, 0, 0, 0, 1, 1, 1, 1, 1, 1] false).1 ≠ FSOErrorCode.convergence := by
  decide

/-- Claim C4 (amended): on valid parameters `ldpc_decode` returns the
current hard decisions for the `k` information positions together with the
return code `FSO_SUCCESS`, whether or not belief propagation converged; the
non-convergence is only logged, and the whole result is independent of the
`converged` flag. -/
theorem claimC4 (n k : ℕ) (received : List ℕ) (decoded_len : ℕ)
    (decoded_bits : List ℕ) (converged : Bool)
    (hrec : received.length = n) (hdl : k ≤ decoded_len) :
    (ldpc_decode_model n k received decoded_len decoded_bits converged).1 =
        FSOErrorCode.success ∧
      (ldpc_decode_model n k received decoded_len decoded_bits converged).2.1 =
        (List.range k).map (fun i => decoded_bits.getD i 0) ∧
      ldpc_decode_model n k received decoded_len decoded_bits converged =
        ldpc_decode_model n k received decoded_len decoded_bits true := by
  unfold ldpc_decode_model
  rw [if_neg (fun h => h hrec), if_neg (by omega)]
  exact ⟨rfl, rfl, rfl⟩

/-- Claim C4, witness: the amended theorem at the concrete inputs of the
counterexample, with both hypotheses discharged by evaluation. -/
theorem claimC4_witness :
    (ldpc_decode_model 12 6 [1, 1, 0, 0, 1, 0, 0, 0, 0, 0, 0, 0] 6
        [0, 1, 1, 0, 0, 0, 1, 1, 1, 1, 1, 1] false).1 = FSOErrorCode.success ∧
      (ldpc_decode_model 12 6 [1, 1, 0, 0, 1, 0, 0, 0, 0, 0, 0, 0] 6
        [0, 1, 1, 0, 0, 0, 1, 1, 1, 1, 1, 1] false).2.1 =
        (List.range 6).map (fun i => [0, 1, 1, 0, 0, 0, 1, 1, 1, 1, 1, 1].getD i 0) ∧
      ldpc_decode_model 12 6 [1, 1, 0, 0, 1, 0, 0, 0, 0, 0, 0, 0] 6
          [0, 1, 1, 0, 0, 0, 1, 1, 1, 1, 1, 1] false =
        ldpc_decode_model 12 6 [1, 1, 0, 0, 1, 0, 0, 0, 0, 0, 0, 0] 6
          [0, 1, 1, 0, 0, 0, 1, 1, 1, 1, 1, 1] true :=
  claimC4 12 6 [1, 1, 0, 0, 1, 0, 0, 0, 0, 0, 0, 0] 6
    [0, 1, 1, 0, 0, 0, 1, 1, 1, 1, 1, 1] false (by decide) (by decide)

/-! ### Claim C10: the corrected-error count of ldpc_decode -/

/-- Claim C10: the corrected-error count returned by `ldpc_decode` equals
the number of positions `i < k` at which the returned decoded bit differs
from the corresponding received value, and it is computed identically
whether or not decoding converged. -/
theorem claimC10 (n k : ℕ) (received : List ℕ) (decoded_len : ℕ)
    (decoded_bits : List ℕ) (converged : Bool)
    (hrec : received.length = n) (hdl : k ≤ decoded_len) :
    (ldpc_decode_model n k received decoded_len decoded_bits converged).2.2 =
        ((List.range k).filter
          (fun i => decide (decoded_bits.getD i 0 ≠ received.getD i 0))).length ∧
      (ldpc_decode_model n k received decoded_len decoded_bits converged).2.2 =
        (ldpc_decode_model n k received decoded_len decoded_bits false).2.2 := by
  unfold ldpc_decode_model
  rw [if_neg (fun h => h hrec), if_neg (by omega)]
  refine ⟨?_, rfl⟩
  show (List.range k).foldl _ 0 = _
  rw [foldl_count_eq_filter_length
    (fun i => ((List.range k).map fun j => decoded_bits.getD j 0).getD i 0 ≠ received.getD i 0)]
  rw [Nat.zero_add]
  congr 1
  apply List.filter_congr
  intro i hi
  have hik : i < k := List.mem_range.mp hi
  rw [getD_map_range (fun j => decoded_bits.getD j 0) k i hik]

/-- Claim C10, witness: the theorem at a concrete decode outcome; the count
is 3 there (positions 0, 2, 4 differ). -/
theorem claimC10_witness :
    (ldpc_decode_model 12 6 [1, 1, 0, 0, 1, 0, 0, 0, 0, 0, 0, 0] 6
        [0, 1, 1, 0, 0, 0, 1, 1, 1, 1, 1, 1] true).2.2 =
        ((List.range 6).filter
          (fun i => decide (([0, 1, 1, 0, 0, 0, 1, 1, 1, 1, 1, 1] : List ℕ).getD i 0 ≠
            ([1, 1, 0, 0, 1, 0, 0, 0, 0, 0, 0, 0] : List ℕ).getD i 0))).length ∧
      (ldpc_decode_model 12 6 [1, 1, 0, 0, 1, 0, 0, 0, 0, 0, 0, 0] 6
        [0, 1, 1, 0, 0, 0, 1, 1, 1, 1, 1, 1] true).2.2 =
      (ldpc_decode_model 12 6 [1, 1, 0, 0, 1, 0, 0, 0, 0, 0, 0, 0] 6
        [0, 1, 1, 0, 0, 0, 1, 1, 1, 1, 1, 1] false).2.2 :=
  claimC10 12 6 [1, 1, 0, 0, 1, 0, 0, 0, 0, 0, 0, 0] 6
    [0, 1, 1, 0, 0, 0, 1, 1, 1, 1, 1, 1] true (by decide) (by decide)

/-! ### Claim C2: H times the LDPC codeword -/

set_option maxRecDepth 4000 in
/-- Claim C2: evaluating the standard-construction pipeline of `fec_init`
and `ldpc_encode` at the failing input LDPC(12, 6), rate 1/2, information
bits `u = [0,0,1,0,0,0]`: the syndrome `H * encode(u)` over GF(2) is
`[1,1,0,1,0,0]`, not the zero vector the claim (and the code's own
debug-build syndrome check) requires. -/
theorem claimC2_failing :
    ldpcSyndrome (ldpcPipelineH 12 6) 6 (ldpcPipelineEncode 12 6 [0, 0, 1, 0, 0, 0]) =
        [1, 1, 0, 1, 0, 0] ∧
      [1, 1, 0, 1, 0, 0] ≠ List.replicate 6 (0 : ℕ) := by
  constructor
  · decide
  · decide

/-! ### Claim C5: free-space path loss at 1 km, 1550 nm -/

/-- Lower numeric bound feeding the path-loss estimate:
`10^1981 * 31^200 ≤ 251327360000^200`, i.e.
`(251327360000/31)^200 ≥ 10^1981`. -/
theorem pathLossNatLow : (10 : ℕ) ^ 1981 * 31 ^ 200 ≤ 251327360000 ^ 200 := by
  norm_num

/-- Upper numeric bound feeding the path-loss estimate. -/
theorem pathLossNatHigh : (251327440000 : ℕ) ^ 200 ≤ 10 ^ 1983 * 31 ^ 200 := by
  norm_num

/-- The channel's free-space path loss at distance 1000 m and wavelength
1.55e-6 m lies between 198.1 dB and 198.3 dB. -/
theorem pathLoss_bounds :
    1981 / 10 ≤ channel_calculate_path_loss 1000 (155 / 100000000) ∧
      channel_calculate_path_loss 1000 (155 / 100000000) ≤ 1983 / 10 := by
  have hπl := Real.pi_gt_3141592
  have hπu := Real.pi_lt_3141593
  have hπ0 := Real.pi_pos
  have hrdef : (4 : ℝ) * Real.pi * 1000 / ((155 : ℝ) / 100000000) =
      Real.pi * (80000000000 / 31) := by
    field_simp
    ring
  have hrl : (251327360000 : ℝ) / 31 ≤ Real.pi * (80000000000 / 31) := by
    nlinarith [hπl]
  have hru : Real.pi * (80000000000 / 31) ≤ (251327440000 : ℝ) / 31 := by
    nlinarith [hπu]
  have hR0 : (0 : ℝ) < Real.pi * (80000000000 / 31) := by positivity
  have hpow_low : (10 : ℝ) ^ (1981 : ℕ) ≤ (Real.pi * (80000000000 / 31)) ^ (200 : ℕ) := by
    calc (10 : ℝ) ^ (1981 : ℕ) ≤ ((251327360000 : ℝ) / 31) ^ (200 : ℕ) := by
          rw [div_pow, le_div_iff (by positivity)]
          have h1 : ((10 : ℝ) ^ (1981 : ℕ)) * (31 : ℝ) ^ (200 : ℕ) =
              (((10 : ℕ) ^ 1981 * 31 ^ 200 : ℕ) : ℝ) := by push_cast; ring
          have h2 : ((251327360000 : ℝ)) ^ (200 : ℕ) =
              (((251327360000 : ℕ) ^ 200 : ℕ) : ℝ) := by push_cast; ring
          rw [h1, h2]
          exact_mod_cast pathLossNatLow
      _ ≤ (Real.pi * (80000000000 / 31)) ^ (200 : ℕ) := by
          apply pow_le_pow_left (by positivity) hrl
  have hpow_high : (Real.pi * (80000000000 / 31)) ^ (200 : ℕ) ≤ (10 : ℝ) ^ (1983 : ℕ) := by
    calc (Real.pi * (80000000000 / 31)) ^ (200 : ℕ)
        ≤ ((251327440000 : ℝ) / 31) ^ (200 : ℕ) := by
          apply pow_le_pow_left (le_of_lt hR0) hru
      _ ≤ (10 : ℝ) ^ (1983 : ℕ) := by
          rw [div_pow, div_le_iff (by positivity)]
          have h1 : ((251327440000 : ℝ)) ^ (200 : ℕ) =
              (((251327440000 : ℕ) ^ 200 : ℕ) : ℝ) := by push_cast; ring
          have h2 : ((10 : ℝ) ^ (1983 : ℕ)) * (31 : ℝ) ^ (200 : ℕ) =
              (((10 : ℕ) ^ 1983 * 31 ^ 200 : ℕ) : ℝ) := by push_cast; ring
          rw [h1, h2]
          exact_mod_cast pathLossNatHigh
  have hlog10 : (0 : ℝ) < Real.log 10 := Real.log_pos (by norm_num)
  have hlog_low : (1981 : ℝ) * Real.log 10 ≤ 200 * Real.log (Real.pi * (80000000000 / 31)) := by
    have h := Real.log_le_log (by positivity) hpow_low
    rw [Real.log_pow, Real.log_pow] at h
    exact_mod_cast h
  have hlog_high : (200 : ℝ) * Real.log (Real.pi * (80000000000 / 31)) ≤ 1983 * Real.log 10 := by
    have h := Real.log_le_log (by positivity) hpow_high
    rw [Real.log_pow, Real.log_pow] at h
    exact_mod_cast h
  unfold channel_calculate_path_loss
  rw [hrdef, Real.logb]
  constructor
  · rw [mul_div_assoc', le_div_iff hlog10]
    linarith
  · rw [mul_div_assoc', div_le_iff hlog10]
    linarith

/-- Claim C5, counterexample to the claim as stated: after
`update_calculations` on a channel with L = 1000 m and λ = 1.55e-6 m, the
cached path loss is not within 0.1 dB of 258.2 dB — it is below 198.3 dB. -/
theorem claimC5_counterexample :
    ¬ |(channel_update_calculations ⟨1000, 155 / 100000000, 0⟩).path_loss_db -
        2582 / 10| ≤ 1 / 10 := by
  have hb := pathLoss_bounds
  have hcache : (channel_update_calculations ⟨1000, 155 / 100000000, 0⟩).path_loss_db =
      channel_calculate_path_loss 1000 (155 / 100000000) := rfl
  rw [hcache, abs_le]
  intro h
  linarith [hb.2, h.1]

/-- Claim C5 (amended): for a channel with link distance 1000 m and
wavelength 1.55e-6 m, after `update_calculations` the cached free-space
path loss equals `20 * log10(4π·1000 / 1.55e-6)`, which is approximately
198.2 dB within ±0.1 dB (not 258.2 dB as the spec states). -/
theorem claimC5 (ch : ChannelState) (hd : ch.link_distance = 1000)
    (hw : ch.wavelength = 155 / 100000000) :
    (channel_update_calculations ch).path_loss_db =
        20 * Real.logb 10 (4 * Real.pi * 1000 / (155 / 100000000)) ∧
      |(channel_update_calculations ch).path_loss_db - 1982 / 10| ≤ 1 / 10 := by
  have hcache : (channel_update_calculations ch).path_loss_db =
      channel_calculate_path_loss 1000 (155 / 100000000) := by
    show channel_calculate_path_loss ch.link_distance ch.wavelength = _
    rw [hd, hw]
  constructor
  · rw [hcache]
    rfl
  · rw [hcache, abs_le]
    have hb := pathLoss_bounds
    constructor <;> linarith [hb.1, hb.2]

/-- Claim C5, witness: the amended theorem on the concrete channel state
with L = 1000 m and λ = 1.55e-6 m. -/
theorem claimC5_witness :
    (channel_update_calculations ⟨1000, 155 / 100000000, 0⟩).path_loss_db =
        20 * Real.logb 10 (4 * Real.pi * 1000 / (155 / 100000000)) ∧
      |(channel_update_calculations ⟨1000, 155 / 100000000, 0⟩).path_loss_db -
          1982 / 10| ≤ 1 / 10 :=
  claimC5 ⟨1000, 155 / 100000000, 0⟩ rfl rfl

/-! ### Claim C8: systematic Reed-Solomon encoding -/

/-- Reading back every position of a list through `getD` rebuilds it. -/
theorem map_getD_range_eq (l : List ℕ) :
    (List.range l.length).map (fun i => l.getD i 0) = l := by
  apply List.ext_getElem (by simp)
  intro i h1 h2
  simp [List.getD_eq_getElem?_getD, List.getElem?_eq_getElem, h2]

/-- Claim C8: for every `RSCodec(n, k)` and every information vector of
length `k`, the first `k` symbols of the codeword returned by `rs_encode`
equal the information vector — the encoding is systematic. -/
theorem claimC8 (m poly fcr n k : ℕ) (data : List ℕ)
    (hk0 : 0 < k) (hkn : k < n) (hn : n ≤ 2 ^ m - 1)
    (hlen : data.length = k) :
    (rs_encode m poly fcr n k data).take k = data := by
  unfold rs_encode
  rw [← List.map_take, List.take_range, min_eq_left (le_of_lt hkn)]
  have hcongr : ∀ i ∈ List.range k,
      (if i < k then data.getD i 0
       else (rsEncodeDivision m poly k
          (rs_generate_generator_polynomial m poly fcr (n - k))
          ((List.range n).map (fun j => if j < k then data.getD j 0 else 0))).getD i 0) =
        data.getD i 0 := by
    intro i hi
    rw [if_pos (List.mem_range.mp hi)]
  rw [List.map_congr_left hcongr, ← hlen, map_getD_range_eq]

/-- Claim C8, witness: the concrete codec RS(7, 3) over GF(8) with
polynomial 0xb and fcr = 1, on the information vector [1, 2, 3]. -/
theorem claimC8_witness :
    (rs_encode 3 11 1 7 3 [1, 2, 3]).take 3 = [1, 2, 3] :=
  claimC8 3 11 1 7 3 [1, 2, 3] (by decide) (by decide) (by decide) (by decide)

/-! ### Claim C6: Galois-field inverses -/

/-- `gf_mul_no_table(a, 2)` — the table-construction step — is one
shift-and-reduce. -/
theorem gf_mul_no_table_two (poly q a : ℕ) :
    gf_mul_no_table poly q a 2 = gfStep q poly a := by
  show (0 ^^^ (gfStep q poly a ^^^ 0)) = gfStep q poly a
  simp

/-- One application peeled off the exponential-table iteration. -/
theorem gfExpFn_succ (m poly i : ℕ) :
    gfExpFn m poly (i + 1) = gfStep (2 ^ m) poly (gfExpFn m poly i) := by
  unfold gfExpFn
  rw [Function.iterate_succ_apply']
  exact gf_mul_no_table_two poly (2 ^ m) (gfExpFn m poly i)

/-- XOR of two numbers that both have bit `m` set and no higher bit clears
bit `m`: the result is below `2^m`. -/
theorem xor_top_clear {m a b : ℕ} (ha1 : 2 ^ m ≤ a) (ha2 : a < 2 ^ (m + 1))
    (hb1 : 2 ^ m ≤ b) (hb2 : b < 2 ^ (m + 1)) : a ^^^ b < 2 ^ m := by
  obtain ⟨a2, rfl⟩ := Nat.exists_eq_add_of_le ha1
  obtain ⟨b2, rfl⟩ := Nat.exists_eq_add_of_le hb1
  have hp : 2 ^ (m + 1) = 2 ^ m + 2 ^ m := by rw [pow_succ]; omega
  have ha2' : a2 < 2 ^ m := by omega
  have hb2' : b2 < 2 ^ m := by omega
  have hxor : (2 ^ m + a2) ^^^ (2 ^ m + b2) = a2 ^^^ b2 := by
    apply Nat.eq_of_testBit_eq
    intro i
    rcases lt_trichotomy i m with h | h | h
    · simp [Nat.testBit_two_pow_add_gt h]
    · subst h
      simp [Nat.testBit_two_pow_add_eq, Nat.testBit_lt_two_pow ha2',
        Nat.testBit_lt_two_pow hb2']
    · have hpi : 2 ^ (m + 1) ≤ 2 ^ i := Nat.pow_le_pow_right (by norm_num) h
      have h1 : 2 ^ m + a2 < 2 ^ i := by omega
      have h2 : 2 ^ m + b2 < 2 ^ i := by omega
      have h3 : a2 < 2 ^ i := by omega
      have h4 : b2 < 2 ^ i := by omega
      simp [Nat.testBit_lt_two_pow, h1, h2, h3, h4]
  rw [hxor]
  exact Nat.xor_lt_two_pow ha2' hb2'

/-- The shift-and-reduce step stays inside the field when the polynomial
has degree exactly `m`. -/
theorem gfStep_lt {m poly a : ℕ} (hd1 : 2 ^ m ≤ poly) (hd2 : poly < 2 ^ (m + 1))
    (ha : a < 2 ^ m) : gfStep (2 ^ m) poly a < 2 ^ m := by
  unfold gfStep
  have hp : 2 ^ (m + 1) = 2 ^ m + 2 ^ m := by rw [pow_succ]; omega
  split
  · exact xor_top_clear (by omega) (by omega) hd1 hd2
  · omega

/-- The shift-and-reduce step never produces 0 from a nonzero element when
the polynomial is odd. -/
theorem gfStep_ne_zero {m poly a : ℕ} (hodd : poly % 2 = 1) (ha0 : a ≠ 0)
    (ha : a < 2 ^ m) : gfStep (2 ^ m) poly a ≠ 0 := by
  unfold gfStep
  split
  · intro h0
    rw [Nat.xor_eq_zero] at h0
    omega
  · omega

/-- Every entry of the exponential iteration is a nonzero field element. -/
theorem gfExpFn_mem {m poly : ℕ} (hd1 : 2 ^ m ≤ poly) (hd2 : poly < 2 ^ (m + 1))
    (hodd : poly % 2 = 1) (hm : 1 ≤ m) (i : ℕ) :
    gfExpFn m poly i ≠ 0 ∧ gfExpFn m poly i < 2 ^ m := by
  induction i with
  | zero =>
    constructor
    · exact one_ne_zero
    · exact Nat.one_lt_two_pow_iff.mpr (by omega)
  | succ j ih =>
    rw [gfExpFn_succ]
    exact ⟨gfStep_ne_zero hodd ih.1 ih.2, gfStep_lt hd1 hd2 ih.2⟩

/-- Under primitivity the exponential table enumerates every nonzero field
element: surjectivity from injectivity by counting. -/
theorem gfExpFn_surj {m poly : ℕ} (hprim : IsPrimitivePoly m poly) (hm : 1 ≤ m)
    (x : ℕ) (hx0 : 0 < x) (hxq : x < 2 ^ m) :
    ∃ i < 2 ^ m - 1, gfExpFn m poly i = x := by
  obtain ⟨hd1, hd2, hodd, hinj⟩ := hprim
  have hsub : (Finset.range (2 ^ m - 1)).image (gfExpFn m poly) ⊆
      Finset.Ioo 0 (2 ^ m) := by
    intro y hy
    obtain ⟨i, hi, rfl⟩ := Finset.mem_image.mp hy
    have := gfExpFn_mem hd1 hd2 hodd hm i
    exact Finset.mem_Ioo.mpr ⟨Nat.pos_of_ne_zero this.1, this.2⟩
  have hcard : ((Finset.range (2 ^ m - 1)).image (gfExpFn m poly)).card =
      2 ^ m - 1 := by
    rw [Finset.card_image_of_injOn, Finset.card_range]
    intro i hi j hj hij
    exact hinj i (Finset.mem_range.mp hi) j (Finset.mem_range.mp hj) hij
  have heq : (Finset.range (2 ^ m - 1)).image (gfExpFn m poly) =
      Finset.Ioo 0 (2 ^ m) := by
    apply Finset.eq_of_subset_of_card_le hsub
    rw [hcard, Nat.card_Ioo]
    omega
  have hx : x ∈ Finset.Ioo 0 (2 ^ m) := Finset.mem_Ioo.mpr ⟨hx0, hxq⟩
  rw [← heq] at hx
  obtain ⟨i, hi, hix⟩ := Finset.mem_image.mp hx
  exact ⟨i, Finset.mem_range.mp hi, hix⟩

/-- The finished log table inverts the exponential iteration: after the
writes for `i = 1 .. j`, looking up `exp[i]` for any `i ≤ j` (including the
untouched initial entry `log[1] = 0`) yields `i`. -/
theorem gfLogBuild_exp {m poly : ℕ}
    (hinj : ∀ i < 2 ^ m - 1, ∀ j < 2 ^ m - 1,
      gfExpFn m poly i = gfExpFn m poly j → i = j)
    (j : ℕ) (hj : j ≤ 2 ^ m - 2) (i : ℕ) (hi : i ≤ j) :
    gfLogBuild m poly j (gfExpFn m poly i) = i := by
  induction j with
  | zero =>
    interval_cases i
    rfl
  | succ t ih =>
    unfold gfLogBuild
    rcases Nat.eq_or_lt_of_le hi with h | h
    · rw [h, Function.update_same]
    · have hit : i ≤ t := by omega
      have hne : gfExpFn m poly i ≠ gfExpFn m poly (t + 1) := by
        intro heq
        have h1 : i < 2 ^ m - 1 := by omega
        have h2 : t + 1 < 2 ^ m - 1 := by omega
        have := hinj i h1 (t + 1) h2 heq
        omega
      rw [Function.update_noteq hne]
      exact ih (by omega) hit

/-- `log_table[exp_table[i]] = i` for every exponent below `q - 1`. -/
theorem gf_log_table_exp {m poly : ℕ}
    (hinj : ∀ i < 2 ^ m - 1, ∀ j < 2 ^ m - 1,
      gfExpFn m poly i = gfExpFn m poly j → i = j)
    (hm : 1 ≤ m) (i : ℕ) (hi : i < 2 ^ m - 1) :
    gf_log_table m poly (gfExpFn m poly i) = i := by
  have h2m : 2 ≤ 2 ^ m := by
    calc 2 = 2 ^ 1 := by norm_num
    _ ≤ 2 ^ m := Nat.pow_le_pow_right (by norm_num) hm
  exact gfLogBuild_exp hinj (2 ^ m - 2) le_rfl i (by omega)

/-- Claim C6: for every GaloisField(m, poly) with m in [3, 16] and a valid
degree-m primitive polynomial, every nonzero field element x satisfies
`gf_mul(x, gf_inv(x)) = 1` and `gf_div(x, x) = 1`. -/
theorem claimC6 (m poly : ℕ) (hm3 : 3 ≤ m) (hm16 : m ≤ 16)
    (hprim : IsPrimitivePoly m poly) (x : ℕ) (hx1 : 1 ≤ x) (hxq : x < 2 ^ m) :
    gf_mul m poly x (gf_inv m poly x) = 1 ∧ gf_div m poly x x = 1 := by
  obtain ⟨hd1, hd2, hodd, hinj⟩ := hprim
  have hm1 : 1 ≤ m := by omega
  have hq8 : 8 ≤ 2 ^ m := by
    calc (8 : ℕ) = 2 ^ 3 := by norm_num
    _ ≤ 2 ^ m := Nat.pow_le_pow_right (by norm_num) hm3
  have hx0 : x ≠ 0 := by omega
  obtain ⟨i, hiN, hix⟩ := gfExpFn_surj ⟨hd1, hd2, hodd, hinj⟩ hm1 x (by omega) hxq
  have hlogx : gf_log_table m poly x = i := hix ▸ gf_log_table_exp hinj hm1 i hiN
  have hdiv : gf_div m poly x x = 1 := by
    unfold gf_div
    rw [if_neg hx0, if_neg hx0]
    have hδ : ((gf_log_table m poly x : ℤ) - gf_log_table m poly x) = 0 := by ring
    rw [hδ]
    norm_num
    show gf_exp_table m poly 0 = 1
    unfold gf_exp_table
    rw [if_pos (by omega)]
    rfl
  refine ⟨?_, hdiv⟩
  -- the inverse is exp[q - 1 - log x]
  have hinvx : gf_inv m poly x = gfExpFn m poly ((2 ^ m - 1 - i) % (2 ^ m - 1)) := by
    unfold gf_inv gf_inv_table
    rw [if_neg hx0, if_neg hx0, hlogx]
    rcases Nat.eq_zero_or_pos i with h0 | hpos
    · subst h0
      unfold gf_exp_table
      rw [if_neg (by omega), if_pos (by omega)]
      simp
    · unfold gf_exp_table
      rw [if_pos (by omega)]
      congr 1
      rw [Nat.mod_eq_of_lt (by omega)]
  rcases Nat.eq_zero_or_pos i with h0 | hpos
  · -- x = exp 0 = 1
    subst h0
    have hx1' : x = 1 := by rw [← hix]; rfl
    subst hx1'
    have hinv1 : gf_inv m poly 1 = 1 := by
      rw [hinvx, Nat.sub_zero, Nat.mod_self]
      rfl
    rw [hinv1]
    unfold gf_mul
    rw [if_neg (by omega)]
    have hlog1 : gf_log_table m poly 1 = 0 := by
      have := gf_log_table_exp hinj hm1 0 (by omega)
      simpa [gfExpFn] using this
    rw [hlog1]
    norm_num
    show gf_exp_table m poly 0 = 1
    unfold gf_exp_table
    rw [if_pos (by omega)]
    rfl
  · -- 1 ≤ i < q - 1: the inverse is exp (q - 1 - i), its log is q - 1 - i
    have hmod : (2 ^ m - 1 - i) % (2 ^ m - 1) = 2 ^ m - 1 - i :=
      Nat.mod_eq_of_lt (by omega)
    have hinv' : gf_inv m poly x = gfExpFn m poly (2 ^ m - 1 - i) := by
      rw [hinvx, hmod]
    have hy := gfExpFn_mem hd1 hd2 hodd hm1 (2 ^ m - 1 - i)
    have hlogy : gf_log_table m poly (gf_inv m poly x) = 2 ^ m - 1 - i := by
      rw [hinv']
      exact gf_log_table_exp hinj hm1 (2 ^ m - 1 - i) (by omega)
    unfold gf_mul
    rw [if_neg (by push_neg; exact ⟨hx0, hinv' ▸ hy.1⟩)]
    rw [hlogx, hlogy]
    have hsum : i + (2 ^ m - 1 - i) = 2 ^ m - 1 := by omega
    rw [hsum]
    show gf_exp_table m poly
      (if 2 ^ m - 1 ≤ 2 ^ m - 1 then 2 ^ m - 1 - (2 ^ m - 1) else 2 ^ m - 1) = 1
    rw [if_pos le_rfl, Nat.sub_self]
    unfold gf_exp_table
    rw [if_pos (by omega)]
    rfl

/-- Claim C6, witness: GF(2^3) with the primitive polynomial 0xb and the
element x = 5. -/
theorem claimC6_witness :
    gf_mul 3 11 5 (gf_inv 3 11 5) = 1 ∧ gf_div 3 11 5 5 = 1 :=
  claimC6 3 11 (by norm_num) (by norm_num) (by decide) 5 (by norm_num) (by norm_num)

/-! ### Claim C3: modulator round-trips — shared bit lemmas -/

set_option maxRecDepth 40000 in
/-- Splitting a byte into MSB-first bits and reassembling restores it. -/
theorem bitsToByte_byteBits : ∀ b < 256, bitsToByte (byteBits b) = b := by
  decide

/-- `byteBits` always produces eight bits. -/
theorem byteBits_length (b : ℕ) : (byteBits b).length = 8 := by
  simp [byteBits]

/-! ### Claim C3: DPSK lemmas -/

/-- Wrapping shifts the phase by a multiple of 2π, so the cosine is
unchanged. -/
theorem cos_wrapPhase (x : ℝ) : Real.cos (wrapPhase x) = Real.cos x := by
  unfold wrapPhase
  split
  · exact Real.cos_sub_two_pi x
  · split
    · exact Real.cos_add_two_pi x
    · rfl

/-- Wrapping shifts the phase by a multiple of 2π, so the sine is
unchanged. -/
theorem sin_wrapPhase (x : ℝ) : Real.sin (wrapPhase x) = Real.sin x := by
  unfold wrapPhase
  split
  · exact Real.sin_sub_two_pi x
  · split
    · exact Real.sin_add_two_pi x
    · rfl

/-- The real part of `current * conj(previous)` for two unit-magnitude
symbols is the cosine of the phase difference. -/
theorem fromPolar_mul_conj_re (a b : ℝ) :
    (fso_complex_from_polar 1 a * (starRingEnd ℂ) (fso_complex_from_polar 1 b)).re =
      Real.cos (a - b) := by
  simp only [fso_complex_from_polar, Complex.mul_re, Complex.conj_re, Complex.conj_im,
    Real.cos_sub, one_mul]
  ring

/-- The differential-detection decision in terms of the phase difference. -/
theorem dpskDemodBit_fromPolar (a b : ℝ) :
    dpskDemodBit (fso_complex_from_polar 1 b) (fso_complex_from_polar 1 a) =
      decide (Real.cos (a - b) < 0) := by
  unfold dpskDemodBit
  rw [fromPolar_mul_conj_re]

/-- The cosine of the wrapped accumulated phase minus the reference phase
is the cosine of the increment. -/
theorem cos_wrap_sub (phi d : ℝ) :
    Real.cos (wrapPhase (phi + d) - phi) = Real.cos d := by
  rw [Real.cos_sub, cos_wrapPhase, sin_wrapPhase, ← Real.cos_sub, add_sub_cancel_left]

/-- `dpsk_modulate` produces one symbol per bit. -/
theorem dpskModBits_length (bits : List Bool) (phi : ℝ) :
    (dpskModBits phi bits).1.length = bits.length := by
  induction bits generalizing phi with
  | nil => rfl
  | cons b rest ih => simp [dpskModBits, ih]

/-- `dpsk_modulate` produces eight symbols per byte. -/
theorem dpskModData_length (data : List ℕ) (phi : ℝ) :
    (dpskModData phi data).1.length = 8 * data.length := by
  induction data generalizing phi with
  | nil => rfl
  | cons byte rest ih =>
    simp [dpskModData, dpskModBits_length, byteBits_length, ih]
    ring

/-- Differential detection starting from the modulator's reference phase
recovers the bit stream, and ends holding the modulator's final symbol. -/
theorem dpsk_roundtrip_bits (bits : List Bool) (phi : ℝ) :
    dpskDemodBits (fso_complex_from_polar 1 phi) (dpskModBits phi bits).1 =
      (bits, fso_complex_from_polar 1 (dpskModBits phi bits).2) := by
  induction bits generalizing phi with
  | nil => rfl
  | cons b rest ih =>
    simp only [dpskModBits, dpskDemodBits]
    rw [ih (wrapPhase (phi + if b then Real.pi else 0))]
    have hbit : dpskDemodBit (fso_complex_from_polar 1 phi)
        (fso_complex_from_polar 1 (wrapPhase (phi + if b then Real.pi else 0))) = b := by
      rw [dpskDemodBit_fromPolar, cos_wrap_sub]
      cases b
      · simp only [if_neg Bool.false_ne_true]
        rw [Real.cos_zero]
        simp
      · norm_num [Real.cos_pi]
    rw [hbit]

/-- The byte loop of `dpsk_demodulate`, fed the byte loop of
`dpsk_modulate` from the same reference phase, restores the bytes. -/
theorem dpsk_roundtrip_loop (data : List ℕ) (phi : ℝ)
    (hdata : ∀ x ∈ data, x < 256) :
    dpskDemodLoop (fso_complex_from_polar 1 phi) data.length (dpskModData phi data).1 =
      (data, fso_complex_from_polar 1 (dpskModData phi data).2) := by
  induction data generalizing phi with
  | nil => rfl
  | cons byte rest ih =>
    have hb : byte < 256 := hdata byte (List.mem_cons_self byte rest)
    have hrest : ∀ x ∈ rest, x < 256 := fun x hx => hdata x (List.mem_cons_of_mem byte hx)
    show dpskDemodLoop _ (rest.length + 1) _ = _
    simp only [dpskModData, dpskDemodLoop]
    have hlen : (dpskModBits phi (byteBits byte)).1.length = 8 := by
      rw [dpskModBits_length, byteBits_length]
    rw [List.take_left' hlen, List.drop_left' hlen]
    rw [dpsk_roundtrip_bits (byteBits byte) phi]
    rw [ih ((dpskModBits phi (byteBits byte)).2) hrest]
    simp [bitsToByte_byteBits byte hb]

/-- DPSK rebuilds the byte at each position from the bit stream. -/
theorem dpsk_demodulate_modulate (data : List ℕ) (a b : ℝ)
    (hne : data ≠ []) (hdata : ∀ x ∈ data, x < 256) :
    dpsk_demodulate ⟨false, b⟩ (dpsk_modulate ⟨false, a⟩ data).2.1 =
      (FSOErrorCode.success, data,
        ⟨true, Complex.arg (fso_complex_from_polar 1 (dpskModData 0 data).2)⟩) := by
  have hlen0 : data.length ≠ 0 := fun h => hne (List.length_eq_zero.mp h)
  unfold dpsk_modulate
  rw [if_neg (by simpa using hlen0)]
  unfold dpsk_demodulate
  have hslen : (dpskModData (if (false : Bool) = true then a else 0) data).1.length =
      8 * data.length := dpskModData_length data _
  simp only [Bool.false_eq_true, if_false] at hslen ⊢
  rw [if_neg (by rw [hslen]; omega)]
  have hdiv : (dpskModData 0 data).1.length / 8 = data.length := by
    rw [hslen]; omega
  rw [hdiv, dpsk_roundtrip_loop data 0 hdata]

/-- π itself is not wrapped (the wrap triggers only strictly above π). -/
theorem wrapPhase_pi : wrapPhase Real.pi = Real.pi := by
  unfold wrapPhase
  rw [if_neg (lt_irrefl _), if_neg (by linarith [Real.pi_pos])]

/-- A run of 0-bits at phase π keeps emitting the symbol of phase π. -/
theorem dpskModBits_zeros (n : ℕ) :
    dpskModBits Real.pi (List.replicate n false) =
      (List.replicate n (fso_complex_from_polar 1 Real.pi), Real.pi) := by
  induction n with
  | zero => rfl
  | succ t ih =>
    rw [List.replicate_succ]
    simp only [dpskModBits, Bool.false_eq_true, if_false, add_zero, wrapPhase_pi, ih]
    rw [List.replicate_succ]

/-- Unfolding one bit of the DPSK modulation loop. -/
theorem dpskModBits_cons (phi : ℝ) (b : Bool) (rest : List Bool) :
    dpskModBits phi (b :: rest) =
      (fso_complex_from_polar 1 (wrapPhase (phi + if b then Real.pi else 0)) ::
          (dpskModBits (wrapPhase (phi + if b then Real.pi else 0)) rest).1,
        (dpskModBits (wrapPhase (phi + if b then Real.pi else 0)) rest).2) := rfl

/-- Modulating the single byte 0x80 from a fresh state yields eight symbols
of phase π and leaves the stored phase at π. -/
theorem dpskModData_128 :
    dpskModData 0 [128] = (List.replicate 8 (fso_complex_from_polar 1 Real.pi), Real.pi) := by
  have hbits : byteBits 128 = true :: List.replicate 7 false := by decide
  have hmod : dpskModBits 0 (byteBits 128) =
      (List.replicate 8 (fso_complex_from_polar 1 Real.pi), Real.pi) := by
    rw [hbits, dpskModBits_cons, if_pos rfl, zero_add, wrapPhase_pi, dpskModBits_zeros]
    rw [← List.replicate_succ]
  simp only [dpskModData, hmod]
  simp

/-- Differential detection of a constant run of phase-π symbols starting
from the (stale) reference phase π decodes every bit as 0. -/
theorem dpskDemodBits_stale (n : ℕ) :
    dpskDemodBits (fso_complex_from_polar 1 Real.pi)
        (List.replicate n (fso_complex_from_polar 1 Real.pi)) =
      (List.replicate n false, fso_complex_from_polar 1 Real.pi) := by
  induction n with
  | zero => rfl
  | succ t ih =>
    rw [List.replicate_succ]
    simp only [dpskDemodBits, ih]
    have hbit : dpskDemodBit (fso_complex_from_polar 1 Real.pi)
        (fso_complex_from_polar 1 Real.pi) = false := by
      rw [dpskDemodBit_fromPolar, sub_self, Real.cos_zero]
      exact decide_eq_false (by norm_num)
    rw [hbit, List.replicate_succ]

/-- Claim C3, counterexample to the claim as stated: modulating the byte
sequence [0x80] on a fresh DPSK modulator and demodulating the resulting
symbols on the same instance returns [0x00], not [0x80] — the modulator
stored its final phase π, so the demodulator's first differential
reference is wrong. -/
theorem claimC3_counterexample :
    (dpsk_demodulate (dpsk_modulate ⟨false, 0⟩ [128]).2.2
        (dpsk_modulate ⟨false, 0⟩ [128]).2.1).2.1 = [0] ∧ ([0] : List ℕ) ≠ [128] := by
  refine ⟨?_, by decide⟩
  have hmod : dpsk_modulate ⟨false, 0⟩ [128] =
      (.success, List.replicate 8 (fso_complex_from_polar 1 Real.pi), ⟨true, Real.pi⟩) := by
    unfold dpsk_modulate
    rw [if_neg (by norm_num)]
    show (FSOErrorCode.success, (dpskModData 0 [128]).1,
      (⟨true, (dpskModData 0 [128]).2⟩ : DPSKState)) = _
    rw [dpskModData_128]
  rw [hmod]
  unfold dpsk_demodulate
  rw [if_neg (by simp)]
  simp only [List.length_replicate]
  show (dpskDemodLoop (fso_complex_from_polar 1 (if (true : Bool) = true then Real.pi else 0))
      (8 / 8) (List.replicate 8 (fso_complex_from_polar 1 Real.pi))).1 = [0]
  norm_num
  show (bitsToByte (dpskDemodBits (fso_complex_from_polar 1 Real.pi)
      ((List.replicate 8 (fso_complex_from_polar 1 Real.pi)).take 8)).1 ::
        (dpskDemodLoop (dpskDemodBits (fso_complex_from_polar 1 Real.pi)
          ((List.replicate 8 (fso_complex_from_polar 1 Real.pi)).take 8)).2 0
          ((List.replicate 8 (fso_complex_from_polar 1 Real.pi)).drop 8)).1) = [0]
  rw [List.take_replicate, List.drop_replicate]
  norm_num [dpskDemodBits_stale]
  decide

/-! ### Claim C3: OOK lemmas -/

/-- At SNR of at least 10 dB the OOK threshold is exactly 1/2. -/
theorem ook_threshold_high (snr : ℝ) (h : 10 ≤ snr) :
    ook_calculate_threshold snr = 1 / 2 := by
  unfold ook_calculate_threshold
  rw [if_pos h]

/-- Eight threshold decisions on clean 0.0/1.0 symbols recover the byte,
for any threshold strictly between the symbol levels. -/
theorem ookDemodByte_spec (th : ℝ) (h0 : 0 < th) (h1 : th ≤ 1) (b : ℕ) (hb : b < 256) :
    ookDemodByte th ((byteBits b).map (fun bit => if bit then (1 : ℝ) else 0)) = b := by
  unfold ookDemodByte
  rw [List.map_map]
  have hid : ((fun s => decide (th ≤ s)) ∘ fun bit => if bit then (1 : ℝ) else 0) = id := by
    funext bit
    cases bit
    · show decide (th ≤ 0) = false
      exact decide_eq_false (not_le.mpr h0)
    · show decide (th ≤ 1) = true
      exact decide_eq_true h1
  rw [hid, List.map_id]
  exact bitsToByte_byteBits b hb

/-- `ook_modulate` emits eight symbols per byte. -/
theorem ook_modulate_length (data : List ℕ) :
    (ook_modulate data).length = 8 * data.length := by
  induction data with
  | nil => rfl
  | cons byte rest ih =>
    simp only [ook_modulate, List.flatMap_cons] at ih ⊢
    rw [List.length_append, List.length_map, byteBits_length, ih, List.length_cons]
    ring

/-- The OOK demodulation loop inverts the modulation loop. -/
theorem ook_roundtrip_loop (th : ℝ) (h0 : 0 < th) (h1 : th ≤ 1) (data : List ℕ)
    (hdata : ∀ x ∈ data, x < 256) :
    ookDemodLoop th data.length (ook_modulate data) = data := by
  induction data with
  | nil => rfl
  | cons byte rest ih =>
    have hb : byte < 256 := hdata byte (List.mem_cons_self byte rest)
    have hrest : ∀ x ∈ rest, x < 256 := fun x hx => hdata x (List.mem_cons_of_mem byte hx)
    show ookDemodLoop th (rest.length + 1) _ = _
    simp only [ook_modulate, List.flatMap_cons, ookDemodLoop]
    have hlen : ((byteBits byte).map (fun bit => if bit then (1 : ℝ) else 0)).length = 8 := by
      rw [List.length_map, byteBits_length]
    rw [List.take_left' hlen, List.drop_left' hlen, ookDemodByte_spec th h0 h1 byte hb]
    show byte :: ookDemodLoop th rest.length (ook_modulate rest) = byte :: rest
    rw [ih hrest]

/-- OOK round-trip through the validated entry points at high SNR. -/
theorem ook_demodulate_modulate (data : List ℕ) (snr : ℝ)
    (hne : data ≠ []) (hdata : ∀ x ∈ data, x < 256) (hsnr : 10 ≤ snr) :
    ook_demodulate (ook_modulate data) snr = (FSOErrorCode.success, data) := by
  have hlen0 : data.length ≠ 0 := fun h => hne (List.length_eq_zero.mp h)
  unfold ook_demodulate
  rw [if_neg (by rw [ook_modulate_length]; omega)]
  have hdiv : (ook_modulate data).length / 8 = data.length := by
    rw [ook_modulate_length]; omega
  rw [hdiv, ook_threshold_high snr hsnr,
    ook_roundtrip_loop (1 / 2) (by norm_num) (by norm_num) data hdata]

/-! ### Claim C3: PPM lemmas -/

/-- A PPM window has one slot per symbol position. -/
theorem ppmWindow_length (M j : ℕ) : (ppmWindow M j).length = M := by
  simp [ppmWindow]

set_option maxRecDepth 40000 in
/-- The strict arg-max scan recovers the pulse slot of a clean window, for
each supported order. -/
theorem ppmArgmax_window (M j : ℕ) (hM : M = 2 ∨ M = 4 ∨ M = 8 ∨ M = 16)
    (hj : j < M) : ppmArgmax (ppmWindow M j) = j := by
  rcases hM with rfl | rfl | rfl | rfl <;> interval_cases j <;> decide

/-- A power of two minus one is below the power. -/
theorem two_pow_sub_one_lt (n : ℕ) : 2 ^ n - 1 < 2 ^ n :=
  Nat.sub_lt (Nat.pos_pow_of_pos n (by norm_num)) one_pos

/-- `extract_bits` stays below `2 ^ num_bits`. -/
theorem extract_bits_lt (d : List ℕ) (off nb : ℕ) : extract_bits d off nb < 2 ^ nb := by
  unfold extract_bits
  split
  · exact Nat.and_lt_two_pow _ (two_pow_sub_one_lt nb)
  · rename_i hbr
    apply Nat.or_lt_two_pow
    · have h1 : d.getD (off / 8) 0 &&& (2 ^ (8 - off % 8) - 1) < 2 ^ (8 - off % 8) :=
        Nat.and_lt_two_pow _ (two_pow_sub_one_lt _)
      rw [Nat.shiftLeft_eq]
      calc (d.getD (off / 8) 0 &&& (2 ^ (8 - off % 8) - 1)) * 2 ^ (nb - (8 - off % 8))
          < 2 ^ (8 - off % 8) * 2 ^ (nb - (8 - off % 8)) :=
            mul_lt_mul_of_pos_right h1 (Nat.pos_pow_of_pos _ (by norm_num))
        _ = 2 ^ nb := by rw [← pow_add]; congr 1; omega
    · have h2 : 2 ^ (nb - (8 - off % 8)) ≤ 2 ^ nb :=
        Nat.pow_le_pow_right (by norm_num) (by omega)
      exact lt_of_lt_of_le (Nat.and_lt_two_pow _ (two_pow_sub_one_lt _)) h2

/-- Bit `nb - 1 - t` of `extract_bits d off nb` is stream bit `off + t` of
the buffer: the extracted chunk holds the `nb` stream bits starting at
`off`, most significant first. -/
theorem extract_bits_spec (d : List ℕ) (off nb : ℕ) (hnb : nb ≤ 8) :
    ∀ t, t < nb → (extract_bits d off nb).testBit (nb - 1 - t) = bitAt d (off + t) := by
  intro t ht
  have ho8 : off % 8 < 8 := Nat.mod_lt _ (by norm_num)
  unfold extract_bits bitAt
  by_cases hbr : nb ≤ 8 - off % 8
  · rw [if_pos hbr, Nat.testBit_and, Nat.testBit_shiftRight, Nat.testBit_two_pow_sub_one]
    rw [decide_eq_true (show nb - 1 - t < nb by omega), Bool.and_true]
    have hidx : 8 - off % 8 - nb + (nb - 1 - t) = 7 - (off + t) % 8 := by omega
    have hdiv : (off + t) / 8 = off / 8 := by omega
    rw [hidx, hdiv]
  · rw [if_neg hbr]
    simp only [Nat.testBit_or, Nat.testBit_and, Nat.testBit_shiftLeft,
      Nat.testBit_shiftRight, Nat.testBit_two_pow_sub_one]
    by_cases hta : t < 8 - off % 8
    · -- the bit lives in the first byte
      rw [decide_eq_true (show nb - 1 - t ≥ nb - (8 - off % 8) by omega)]
      rw [decide_eq_false (show ¬ (nb - 1 - t < nb - (8 - off % 8)) by omega)]
      rw [decide_eq_true
        (show nb - 1 - t - (nb - (8 - off % 8)) < 8 - off % 8 by omega)]
      simp only [Bool.true_and, Bool.and_true, Bool.and_false, Bool.or_false]
      have hidx : nb - 1 - t - (nb - (8 - off % 8)) = 7 - (off + t) % 8 := by omega
      have hdiv : (off + t) / 8 = off / 8 := by omega
      rw [hidx, hdiv]
    · -- the bit lives in the second byte
      rw [decide_eq_false (show ¬ (nb - 1 - t ≥ nb - (8 - off % 8)) by omega)]
      rw [decide_eq_true (show nb - 1 - t < nb - (8 - off % 8) by omega)]
      simp only [Bool.false_and, Bool.false_or, Bool.and_true]
      have hidx : 8 - (nb - (8 - off % 8)) + (nb - 1 - t) = 7 - (off + t) % 8 := by
        omega
      have hdiv : (off + t) / 8 = off / 8 + 1 := by omega
      rw [hidx, hdiv]

/-- Reading a written list: the new value at the written index (when in
range), the old value elsewhere. -/
theorem getD_set_eq_ite (l : List ℕ) (i j x : ℕ) :
    (l.set i x).getD j 0 = if i = j ∧ j < l.length then x else l.getD j 0 := by
  by_cases hij : i = j
  · subst hij
    by_cases hl : i < l.length
    · rw [List.getD_eq_getElem?_getD, List.getElem?_set_self hl, if_pos ⟨rfl, hl⟩]
      rfl
    · rw [List.set_eq_of_length_le (by omega), if_neg (fun h => hl h.2)]
  · rw [List.getD_eq_getElem?_getD, List.getElem?_set_ne hij,
      ← List.getD_eq_getElem?_getD, if_neg (fun h => hij h.1)]

/-- One masked byte write, bit by bit: inside the cleared zone the new bits
come from `val`, outside it the old bits survive. -/
theorem setByte_testBit (old val shift t : ℕ) (hval : val < 2 ^ t)
    (hts : t + shift ≤ 8) (p : ℕ) (hp : p < 8) :
    ((old &&& (255 ^^^ ((2 ^ t - 1) <<< shift))) ||| (val <<< shift)).testBit p =
      if shift ≤ p ∧ p < shift + t then val.testBit (p - shift) else old.testBit p := by
  have h255 : (255 : ℕ) = 2 ^ 8 - 1 := by norm_num
  rw [h255]
  simp only [Nat.testBit_or, Nat.testBit_and, Nat.testBit_xor, Nat.testBit_shiftLeft,
    Nat.testBit_two_pow_sub_one]
  rw [decide_eq_true hp]
  by_cases h1 : shift ≤ p
  · rw [decide_eq_true (show p ≥ shift from h1)]
    by_cases h2 : p < shift + t
    · rw [if_pos ⟨h1, h2⟩, decide_eq_true (show p - shift < t by omega)]
      simp
    · rw [if_neg (fun h => h2 h.2), decide_eq_false (show ¬ (p - shift < t) by omega)]
      have hvb : val.testBit (p - shift) = false :=
        Nat.testBit_lt_two_pow
          (lt_of_lt_of_le hval (Nat.pow_le_pow_right (by norm_num) (by omega)))
      rw [hvb]
      simp
  · rw [decide_eq_false (show ¬ (p ≥ shift) from h1), if_neg (fun h => h1 h.1)]
    simp

/-- A masked byte write stays below 256. -/
theorem setByte_lt (old val shift t : ℕ) (hval : val < 2 ^ t) (hts : t + shift ≤ 8) :
    ((old &&& (255 ^^^ ((2 ^ t - 1) <<< shift))) ||| (val <<< shift)) < 256 := by
  have h256 : (256 : ℕ) = 2 ^ 8 := by norm_num
  have hshift : ∀ w : ℕ, w < 2 ^ t → w <<< shift < 2 ^ 8 := by
    intro w hw
    rw [Nat.shiftLeft_eq]
    calc w * 2 ^ shift < 2 ^ t * 2 ^ shift :=
          mul_lt_mul_of_pos_right hw (Nat.pos_pow_of_pos _ (by norm_num))
      _ = 2 ^ (t + shift) := by rw [← pow_add]
      _ ≤ 2 ^ 8 := Nat.pow_le_pow_right (by norm_num) hts
  rw [h256]
  apply Nat.or_lt_two_pow
  · apply lt_of_le_of_lt Nat.and_le_right
    apply Nat.xor_lt_two_pow (by norm_num)
    exact hshift _ (two_pow_sub_one_lt t)
  · exact hshift _ hval

/-- A bit of a written list: the written byte's bit at the written index
(when in range), the old bit elsewhere. -/
theorem bitAt_set (buf : List ℕ) (i x p : ℕ) :
    bitAt (buf.set i x) p =
      if i = p / 8 ∧ p / 8 < buf.length then x.testBit (7 - p % 8) else bitAt buf p := by
  unfold bitAt
  rw [getD_set_eq_ite]
  by_cases h : i = p / 8 ∧ p / 8 < buf.length
  · rw [if_pos h, if_pos h]
  · rw [if_neg h, if_neg h]

/-- `insert_bits` never changes the buffer length. -/
theorem insert_bits_length (buf : List ℕ) (off v nb : ℕ) :
    (insert_bits buf off v nb).length = buf.length := by
  unfold insert_bits
  split <;> simp

/-- `insert_bits` keeps every buffer entry a byte. -/
theorem insert_bits_mem_lt (buf : List ℕ) (off v nb : ℕ) (hnb : nb ≤ 8)
    (hb : ∀ x ∈ buf, x < 256) : ∀ x ∈ insert_bits buf off v nb, x < 256 := by
  intro x hx
  have ho8 : off % 8 < 8 := Nat.mod_lt _ (by norm_num)
  unfold insert_bits at hx
  by_cases hbr : nb ≤ 8 - off % 8
  · rw [if_pos hbr] at hx
    rcases List.mem_or_eq_of_mem_set hx with h | h
    · exact hb x h
    · subst h
      exact setByte_lt _ _ _ _ (Nat.and_lt_two_pow _ (two_pow_sub_one_lt _)) (by omega)
  · rw [if_neg hbr] at hx
    rcases List.mem_or_eq_of_mem_set hx with h | h
    · rcases List.mem_or_eq_of_mem_set h with h2 | h2
      · exact hb x h2
      · subst h2
        have h256 : (256 : ℕ) = 2 ^ 8 := by norm_num
        rw [h256]
        apply Nat.or_lt_two_pow
        · exact lt_of_le_of_lt Nat.and_le_right
            (Nat.xor_lt_two_pow (by norm_num)
              (lt_of_lt_of_le (two_pow_sub_one_lt _)
                (Nat.pow_le_pow_right (by norm_num) (by omega))))
        · exact lt_of_le_of_lt Nat.and_le_right
            (lt_of_lt_of_le (two_pow_sub_one_lt _)
              (Nat.pow_le_pow_right (by norm_num) (by omega)))
    · subst h
      exact setByte_lt _ _ _ _ (Nat.and_lt_two_pow _ (two_pow_sub_one_lt _)) (by omega)

/-- `insert_bits` writes the low `num_bits` of `v`, MSB first, at bit
offsets `off .. off+num_bits-1` of the stream. -/
theorem insert_bits_spec_in (buf : List ℕ) (off v nb : ℕ) (hnb : nb ≤ 8)
    (hrange : off + nb ≤ 8 * buf.length) :
    ∀ t, t < nb → bitAt (insert_bits buf off v nb) (off + t) = v.testBit (nb - 1 - t) := by
  intro t ht
  have ho8 : off % 8 < 8 := Nat.mod_lt _ (by norm_num)
  unfold insert_bits
  by_cases hbr : nb ≤ 8 - off % 8
  · rw [if_pos hbr, bitAt_set, if_pos ⟨by omega, by omega⟩,
      setByte_testBit (buf.getD (off / 8) 0) (v &&& (2 ^ nb - 1)) (8 - off % 8 - nb) nb
        (Nat.and_lt_two_pow _ (two_pow_sub_one_lt _)) (by omega) (7 - (off + t) % 8) (by omega),
      if_pos ⟨by omega, by omega⟩,
      show 7 - (off + t) % 8 - (8 - off % 8 - nb) = nb - 1 - t from by omega,
      Nat.testBit_and, Nat.testBit_two_pow_sub_one,
      decide_eq_true (show nb - 1 - t < nb by omega), Bool.and_true]
  · rw [if_neg hbr]
    by_cases hta : t < 8 - off % 8
    · rw [bitAt_set, List.length_set, if_neg (fun h => absurd h.1 (by omega)),
        bitAt_set, if_pos ⟨by omega, by omega⟩,
        show (255 : ℕ) = 2 ^ 8 - 1 from by norm_num]
      simp only [Nat.testBit_or, Nat.testBit_and, Nat.testBit_xor,
        Nat.testBit_two_pow_sub_one, Nat.testBit_shiftRight]
      rw [decide_eq_true (show 7 - (off + t) % 8 < 8 from by omega),
        decide_eq_true (show 7 - (off + t) % 8 < 8 - off % 8 from by omega),
        show nb - (8 - off % 8) + (7 - (off + t) % 8) = nb - 1 - t from by omega]
      simp
    · rw [bitAt_set, List.length_set, if_pos ⟨by omega, by omega⟩]
      have hlow := fun (old : ℕ) => setByte_testBit old (v &&& (2 ^ (nb - (8 - off % 8)) - 1))
        (8 - (nb - (8 - off % 8))) (nb - (8 - off % 8))
        (Nat.and_lt_two_pow _ (two_pow_sub_one_lt _)) (by omega) (7 - (off + t) % 8) (by omega)
      rw [hlow, if_pos ⟨by omega, by omega⟩,
        show 7 - (off + t) % 8 - (8 - (nb - (8 - off % 8))) = nb - 1 - t from by omega,
        Nat.testBit_and, Nat.testBit_two_pow_sub_one,
        decide_eq_true (show nb - 1 - t < nb - (8 - off % 8) from by omega), Bool.and_true]

/-- `insert_bits` leaves every bit outside `off .. off+num_bits-1`
unchanged. -/
theorem insert_bits_spec_out (buf : List ℕ) (off v nb : ℕ) (hnb : nb ≤ 8) :
    ∀ p, p < off ∨ off + nb ≤ p → bitAt (insert_bits buf off v nb) p = bitAt buf p := by
  intro p hp
  have ho8 : off % 8 < 8 := Nat.mod_lt _ (by norm_num)
  unfold insert_bits
  by_cases hbr : nb ≤ 8 - off % 8
  · rw [if_pos hbr, bitAt_set]
    by_cases hB : off / 8 = p / 8 ∧ p / 8 < buf.length
    · obtain ⟨hB1, hB2⟩ := hB
      rw [if_pos ⟨hB1, hB2⟩,
        setByte_testBit (buf.getD (off / 8) 0) (v &&& (2 ^ nb - 1)) (8 - off % 8 - nb) nb
          (Nat.and_lt_two_pow _ (two_pow_sub_one_lt _)) (by omega) (7 - p % 8) (by omega),
        if_neg (by omega)]
      unfold bitAt
      rw [← hB1]
    · rw [if_neg hB]
  · rw [if_neg hbr, bitAt_set, List.length_set]
    by_cases hBo : off / 8 + 1 = p / 8 ∧ p / 8 < buf.length
    · obtain ⟨hB1, hB2⟩ := hBo
      have hlow := fun (old : ℕ) => setByte_testBit old (v &&& (2 ^ (nb - (8 - off % 8)) - 1))
        (8 - (nb - (8 - off % 8))) (nb - (8 - off % 8))
        (Nat.and_lt_two_pow _ (two_pow_sub_one_lt _)) (by omega) (7 - p % 8) (by omega)
      rw [if_pos ⟨hB1, hB2⟩, hlow, if_neg (by omega),
        getD_set_eq_ite, if_neg (fun h => absurd h.1 (by omega))]
      unfold bitAt
      rw [← hB1]
    · rw [if_neg hBo, bitAt_set]
      by_cases hB : off / 8 = p / 8 ∧ p / 8 < buf.length
      · obtain ⟨hB1, hB2⟩ := hB
        rw [if_pos ⟨hB1, hB2⟩, show (255 : ℕ) = 2 ^ 8 - 1 from by norm_num]
        simp only [Nat.testBit_or, Nat.testBit_and, Nat.testBit_xor,
          Nat.testBit_two_pow_sub_one, Nat.testBit_shiftRight]
        rw [decide_eq_true (show 7 - p % 8 < 8 from by omega),
          decide_eq_false (show ¬ (7 - p % 8 < 8 - off % 8) from by omega)]
        simp only [Bool.xor_false, Bool.and_true, Bool.and_false, Bool.or_false]
        unfold bitAt
        rw [← hB1]
      · rw [if_neg hB]

/-- Two byte lists agreeing on every stream bit are equal. -/
theorem eq_of_bitAt_eq (l1 l2 : List ℕ) (hlen : l1.length = l2.length)
    (h1 : ∀ x ∈ l1, x < 256) (h2 : ∀ x ∈ l2, x < 256)
    (hbit : ∀ p, p < 8 * l1.length → bitAt l1 p = bitAt l2 p) : l1 = l2 := by
  apply List.ext_getElem hlen
  intro j hj1 hj2
  apply Nat.eq_of_testBit_eq
  intro q
  by_cases hq : q < 8
  · have hb := hbit (8 * j + (7 - q)) (by omega)
    unfold bitAt at hb
    rw [show (8 * j + (7 - q)) / 8 = j from by omega,
      show 7 - (8 * j + (7 - q)) % 8 = q from by omega,
      List.getD_eq_getElem l1 0 hj1, List.getD_eq_getElem l2 0 hj2] at hb
    exact hb
  · have h256q : (256 : ℕ) ≤ 2 ^ q :=
      calc (256 : ℕ) = 2 ^ 8 := by norm_num
        _ ≤ 2 ^ q := Nat.pow_le_pow_right (by norm_num) (by omega)
    have hb1 : l1[j].testBit q = false :=
      Nat.testBit_lt_two_pow (lt_of_lt_of_le (h1 _ (l1.getElem_mem hj1)) h256q)
    have hb2 : l2[j].testBit q = false :=
      Nat.testBit_lt_two_pow (lt_of_lt_of_le (h2 _ (l2.getElem_mem hj2)) h256q)
    rw [hb1, hb2]

/-- The PPM modulation loop emits `M` slots per symbol. -/
theorem ppmModLoop_length (data : List ℕ) (totalBits bps M : ℕ) :
    ∀ s off, (ppmModLoop data totalBits bps M s off).length = s * M := by
  intro s
  induction s with
  | zero => intro off; simp [ppmModLoop]
  | succ n ih =>
    intro off
    show (ppmWindow M _ ++ ppmModLoop data totalBits bps M n (off + bps)).length = (n + 1) * M
    rw [List.length_append, ppmWindow_length, ih]
    ring

/-- Joint invariant of the PPM modulate and demodulate loops: running the
demodulation loop on the slots emitted by the modulation loop extends the
bit-for-bit agreement of the buffer with the source data from `off` to the
end of the stream, keeping length and byte bounds. -/
theorem ppm_roundtrip_loop (data : List ℕ) (M bps : ℕ)
    (hM : M = 2 ∨ M = 4 ∨ M = 8 ∨ M = 16) (hbps : bps = ppm_bits_per_symbol M) :
    ∀ s off buf, off + s * bps = 8 * data.length →
      buf.length = data.length → (∀ x ∈ buf, x < 256) →
      (∀ p, p < off → bitAt buf p = bitAt data p) →
      (ppmDemodLoop M bps (8 * data.length) s off
          (ppmModLoop data (8 * data.length) bps M s off) buf).length = data.length ∧
      (∀ x ∈ ppmDemodLoop M bps (8 * data.length) s off
          (ppmModLoop data (8 * data.length) bps M s off) buf, x < 256) ∧
      (∀ p, p < 8 * data.length →
        bitAt (ppmDemodLoop M bps (8 * data.length) s off
          (ppmModLoop data (8 * data.length) bps M s off) buf) p = bitAt data p) := by
  have hkey : M = 2 ^ bps ∧ 0 < bps ∧ bps ≤ 8 := by
    subst hbps
    rcases hM with rfl | rfl | rfl | rfl <;> refine ⟨by decide, by decide, by decide⟩
  obtain ⟨hMb, h0, h8⟩ := hkey
  intro s
  induction s with
  | zero =>
    intro off buf htot hlen hmem hpre
    refine ⟨hlen, hmem, fun p hp => hpre p (by omega)⟩
  | succ n ih =>
    intro off buf htot hlen hmem hpre
    have htot' : (off + bps) + n * bps = 8 * data.length := by rw [← htot]; ring
    have hfit : off + bps ≤ 8 * data.length := htot' ▸ Nat.le_add_right _ _
    have hsym : ppmSymBits data (8 * data.length) bps off = extract_bits data off bps := by
      unfold ppmSymBits
      rw [if_pos hfit]
    have hbits_lt : ppmSymBits data (8 * data.length) bps off < M := by
      rw [hsym, hMb]
      exact extract_bits_lt _ _ _
    have hwl : (ppmWindow M (ppmSymBits data (8 * data.length) bps off)).length = M :=
      ppmWindow_length _ _
    have hmod : ppmModLoop data (8 * data.length) bps M (n + 1) off =
        ppmWindow M (ppmSymBits data (8 * data.length) bps off) ++
          ppmModLoop data (8 * data.length) bps M n (off + bps) := rfl
    have hstep : ppmDemodLoop M bps (8 * data.length) (n + 1) off
        (ppmWindow M (ppmSymBits data (8 * data.length) bps off) ++
          ppmModLoop data (8 * data.length) bps M n (off + bps)) buf =
        ppmDemodLoop M bps (8 * data.length) n (off + bps)
          (ppmModLoop data (8 * data.length) bps M n (off + bps))
          (insert_bits buf off (extract_bits data off bps) bps) := by
      show ppmDemodLoop M bps (8 * data.length) n (off + bps)
          ((ppmWindow M (ppmSymBits data (8 * data.length) bps off) ++
            ppmModLoop data (8 * data.length) bps M n (off + bps)).drop M)
          (if off + bps ≤ 8 * data.length then
            insert_bits buf off
              (ppmArgmax ((ppmWindow M (ppmSymBits data (8 * data.length) bps off) ++
                ppmModLoop data (8 * data.length) bps M n (off + bps)).take M)) bps
           else if 0 < 8 * data.length - off then
            insert_bits buf off
              ((ppmArgmax ((ppmWindow M (ppmSymBits data (8 * data.length) bps off) ++
                ppmModLoop data (8 * data.length) bps M n (off + bps)).take M)) >>>
                (bps - (8 * data.length - off))) (8 * data.length - off)
           else buf) = _
      rw [List.take_left' hwl, List.drop_left' hwl, if_pos hfit,
        ppmArgmax_window M _ hM hbits_lt, hsym]
    rw [hmod, hstep]
    apply ih (off + bps) (insert_bits buf off (extract_bits data off bps) bps) htot'
    · rw [insert_bits_length, hlen]
    · exact insert_bits_mem_lt buf off _ bps h8 hmem
    · intro p hp
      by_cases hpo : p < off
      · rw [insert_bits_spec_out buf off _ bps h8 p (Or.inl hpo)]
        exact hpre p hpo
      · have hex : ∃ t, t < bps ∧ p = off + t := ⟨p - off, by omega, by omega⟩
        obtain ⟨t, ht, rfl⟩ := hex
        rw [insert_bits_spec_in buf off _ bps h8 (by omega) t ht,
          extract_bits_spec data off bps h8 t ht]

/-- PPM roundtrip: when the bit stream fills the symbols exactly,
demodulating the modulated stream returns the data. -/
theorem ppm_demodulate_modulate (data : List ℕ) (M : ℕ)
    (hM : M = 2 ∨ M = 4 ∨ M = 8 ∨ M = 16) (hne : data ≠ [])
    (hdata : ∀ x ∈ data, x < 256)
    (halign : (8 * data.length) % ppm_bits_per_symbol M = 0) :
    ppm_demodulate (ppm_modulate data M).2 M = (FSOErrorCode.success, data) := by
  have hlen0 : data.length ≠ 0 := fun h => hne (List.length_eq_zero.mp h)
  have hkey : M = 2 ^ ppm_bits_per_symbol M ∧ 0 < ppm_bits_per_symbol M ∧
      ppm_bits_per_symbol M ≤ 8 ∧ 0 < M := by
    rcases hM with rfl | rfl | rfl | rfl <;> refine ⟨by decide, by decide, by decide, by decide⟩
  obtain ⟨hMb, h0, h8, hM0⟩ := hkey
  have halign' : data.length * 8 % ppm_bits_per_symbol M = 0 := by
    rw [Nat.mul_comm]
    exact halign
  obtain ⟨q, hq⟩ := Nat.dvd_of_mod_eq_zero halign'
  have hq1 : 0 < q := by
    rcases Nat.eq_zero_or_pos q with h | h
    · rw [h, Nat.mul_zero] at hq
      exact absurd hq (by omega)
    · exact h
  have hnum : (data.length * 8 + ppm_bits_per_symbol M - 1) / ppm_bits_per_symbol M = q := by
    rw [hq, Nat.add_sub_assoc (by omega), Nat.mul_add_div h0, Nat.div_eq_of_lt (by omega),
      Nat.add_zero]
  have hcond1 : ¬(data.length = 0 ∨ ¬(M = 2 ∨ M = 4 ∨ M = 8 ∨ M = 16)) :=
    fun h => h.elim (fun h0 => hlen0 h0) (fun h1 => h1 hM)
  have hmod : ppm_modulate data M = (FSOErrorCode.success,
      ppmModLoop data (data.length * 8) (ppm_bits_per_symbol M) M q 0) := by
    unfold ppm_modulate
    rw [if_neg hcond1]
    show (FSOErrorCode.success, ppmModLoop data (data.length * 8) (ppm_bits_per_symbol M) M
      ((data.length * 8 + ppm_bits_per_symbol M - 1) / ppm_bits_per_symbol M) 0) = _
    rw [hnum]
  have hsymlen : (ppmModLoop data (data.length * 8) (ppm_bits_per_symbol M) M q 0).length =
      q * M := ppmModLoop_length _ _ _ _ q 0
  have hcond2 : ¬((ppmModLoop data (data.length * 8) (ppm_bits_per_symbol M) M q 0).length = 0 ∨
      (ppmModLoop data (data.length * 8) (ppm_bits_per_symbol M) M q 0).length % M ≠ 0 ∨
      ¬(M = 2 ∨ M = 4 ∨ M = 8 ∨ M = 16)) := by
    rw [hsymlen]
    rintro (h | h | h)
    · exact (Nat.mul_pos hq1 hM0).ne' h
    · exact h (Nat.mul_mod_left q M)
    · exact h hM
  have hdivq : q * M / M = q := Nat.mul_div_cancel q hM0
  have hqb : q * ppm_bits_per_symbol M = 8 * data.length := by
    rw [Nat.mul_comm q, ← hq]
    exact Nat.mul_comm _ _
  rw [hmod]
  show ppm_demodulate (ppmModLoop data (data.length * 8) (ppm_bits_per_symbol M) M q 0) M =
    (FSOErrorCode.success, data)
  unfold ppm_demodulate
  rw [if_neg hcond2]
  show (FSOErrorCode.success,
    ppmDemodLoop M (ppm_bits_per_symbol M)
      ((ppmModLoop data (data.length * 8) (ppm_bits_per_symbol M) M q 0).length / M *
        ppm_bits_per_symbol M)
      ((ppmModLoop data (data.length * 8) (ppm_bits_per_symbol M) M q 0).length / M) 0
      (ppmModLoop data (data.length * 8) (ppm_bits_per_symbol M) M q 0)
      (List.replicate
        (((ppmModLoop data (data.length * 8) (ppm_bits_per_symbol M) M q 0).length / M *
          ppm_bits_per_symbol M + 7) / 8) 0)) = (FSOErrorCode.success, data)
  rw [hsymlen, hdivq, hqb, show (8 * data.length + 7) / 8 = data.length from by omega,
    show data.length * 8 = 8 * data.length from Nat.mul_comm _ _]
  obtain ⟨hrl, hrm, hrb⟩ := ppm_roundtrip_loop data M (ppm_bits_per_symbol M) hM rfl q 0
    (List.replicate data.length 0)
    (by rw [Nat.zero_add]; exact hqb)
    (by simp)
    (by intro x hx; rw [List.eq_of_mem_replicate hx]; norm_num)
    (fun p hp => absurd hp (Nat.not_lt_zero p))
  have hfinal := eq_of_bitAt_eq _ data hrl hrm hdata
    (fun p hp => hrb p (by rw [hrl] at hp; exact hp))
  rw [hfinal]

/-- Claim C3 (corrected): with a clean channel each modulator roundtrips
byte-exactly under its alignment precondition — OOK at SNR ≥ 10 dB, PPM
when the 8·len bit stream fills the symbols exactly, and DPSK when the
demodulator starts from a fresh (uninitialized) state.  Demodulating on
the very instance that just modulated, as the claim words it, fails for
DPSK (see `claimC3_counterexample`): the modulator leaves `last_phase` at
the final symbol phase, so the first differential comparison is wrong
whenever the first byte has odd parity. -/
theorem claimC3 :
    (∀ (data : List ℕ) (snr : ℝ), data ≠ [] → (∀ x ∈ data, x < 256) → 10 ≤ snr →
      ook_demodulate (ook_modulate data) snr = (FSOErrorCode.success, data)) ∧
    (∀ (data : List ℕ) (M : ℕ), (M = 2 ∨ M = 4 ∨ M = 8 ∨ M = 16) → data ≠ [] →
      (∀ x ∈ data, x < 256) → (8 * data.length) % ppm_bits_per_symbol M = 0 →
      ppm_demodulate (ppm_modulate data M).2 M = (FSOErrorCode.success, data)) ∧
    (∀ (data : List ℕ) (a b : ℝ), data ≠ [] → (∀ x ∈ data, x < 256) →
      (dpsk_demodulate ⟨false, b⟩ (dpsk_modulate ⟨false, a⟩ data).2.1).2.1 = data) :=
  ⟨fun data snr h1 h2 h3 => ook_demodulate_modulate data snr h1 h2 h3,
   fun data M hM h1 h2 h3 => ppm_demodulate_modulate data M hM h1 h2 h3,
   fun data a b h1 h2 => by rw [dpsk_demodulate_modulate data a b h1 h2]⟩

/-- Concrete instance of claim C3: the byte `0xCA` roundtrips through OOK
at 12 dB, through 4-PPM, and through DPSK with a fresh demodulator. -/
theorem claimC3_witness :
    ook_demodulate (ook_modulate [202]) 12 = (FSOErrorCode.success, [202]) ∧
    ppm_demodulate (ppm_modulate [202] 4).2 4 = (FSOErrorCode.success, [202]) ∧
    (dpsk_demodulate ⟨false, 0⟩ (dpsk_modulate ⟨false, 0⟩ [202]).2.1).2.1 = [202] :=
  ⟨claimC3.1 [202] 12 (by decide) (by decide) (by norm_num),
   claimC3.2.1 [202] 4 (by decide) (by decide) (by decide) (by decide),
   claimC3.2.2 [202] 0 0 (by decide) (by decide)⟩
